import Mathlib

/-!
# Verification of the Architectural Drift Benchmark core

A shallow embedding of the Drift Scoring Engine (the five validators and
the scoring aggregator of `src/validators` and `src/llm/client.ts`) and of
the Strategy Execution Engine (`src/strategies/repair.ts`,
`src/strategies/regeneration.ts`, `src/engine.ts`), together with theorems
settling the specification claims about them.

Text is modelled as `String` / `List Char`; the JavaScript regular
expressions of the source are embedded as explicit character-level
matchers with the exact semantics of the patterns used (greedy matching,
`m`-flag line anchoring, `g`-flag scan that resumes after each match).
The external generation service is modelled as an oracle `gen : Nat →
String` giving the text returned by the n-th `generate` call of one
strategy invocation; a deterministic service induces such a sequence.
Floating-point arithmetic of the style validator is modelled exactly over
`ℚ` (the quantities involved are ratios of small naturals).
-/

set_option maxRecDepth 20000

namespace Drift

/-! ## Character classes (JavaScript regular-expression semantics) -/

/-- Code point of a character, as a natural number. -/
def cn (c : Char) : Nat := c.toNat

/-- JavaScript `\s`: WhiteSpace and LineTerminator code points. -/
def jsWs (c : Char) : Bool :=
  cn c = 9 || cn c = 10 || cn c = 11 || cn c = 12 || cn c = 13 || cn c = 32 ||
  cn c = 160 || cn c = 5760 || (8192 ≤ cn c && cn c ≤ 8202) ||
  cn c = 8232 || cn c = 8233 || cn c = 8239 || cn c = 8287 || cn c = 12288 ||
  cn c = 65279

/-- JavaScript LineTerminator (what `^`/`$` anchor at with the `m` flag,
and what `.` refuses to match). -/
def jsLineTerm (c : Char) : Bool :=
  cn c = 10 || cn c = 13 || cn c = 8232 || cn c = 8233

/-- JavaScript `\d`. -/
def jsDigit (c : Char) : Bool := 48 ≤ cn c && cn c ≤ 57

/-- JavaScript `\w`: ASCII letters, digits and underscore. -/
def jsWordChar (c : Char) : Bool :=
  (65 ≤ cn c && cn c ≤ 90) || (97 ≤ cn c && cn c ≤ 122) ||
  (48 ≤ cn c && cn c ≤ 57) || cn c = 95

/-- ASCII lower-case letter (`/[a-z]/`). -/
def asciiLower (c : Char) : Bool := 97 ≤ cn c && cn c ≤ 122

/-- ASCII letter (`/[a-z]/i`). -/
def asciiLetter (c : Char) : Bool :=
  (65 ≤ cn c && cn c ≤ 90) || (97 ≤ cn c && cn c ≤ 122)

/-- ASCII upper-casing, the canonicalisation used by the `i` regex flag on
the ASCII patterns of this code base (a non-ASCII character never
case-folds onto an ASCII one in JavaScript regex matching). -/
def upChar (c : Char) : Char :=
  if asciiLower c then Char.ofNat (cn c - 32) else c

/-! ## Case-insensitive substring counting (`text.match(new RegExp(term, "gi"))`) -/

/-- Case-insensitive prefix test: `pat` matches at the head of `s`. -/
def ciPrefix (pat s : List Char) : Bool :=
  (pat.map upChar).isPrefixOf (s.map upChar)

/-- Scanner for a global (`g` flag) case-insensitive literal search:
`skip` characters of the current match remain to be stepped over. -/
def countOccCIAux (pat : List Char) : Nat → List Char → Nat
  | _, [] => 0
  | s + 1, _ :: rest => countOccCIAux pat s rest
  | 0, c :: rest =>
    if ciPrefix pat (c :: rest) && pat ≠ [] then
      1 + countOccCIAux pat (pat.length - 1) rest
    else
      countOccCIAux pat 0 rest

/-- Number of matches found by a global (`g` flag) case-insensitive scan of
`text` for the literal pattern `pat`: leftmost matches, resuming right
after each match (the count `text.match(regex).length` yields). -/
def countOccCI (pat text : List Char) : Nat := countOccCIAux pat 0 text

/-- Number of positions of `text` at which `pat` matches case-insensitively
(the plain "number of case-insensitive substring occurrences"). -/
def countPositions (pat : List Char) : List Char → Nat
  | [] => 0
  | c :: rest => (if ciPrefix pat (c :: rest) then 1 else 0) + countPositions pat rest

/-! ## Vocabulary Validator (`src/validators/vocabulary.ts`) -/

/-- The fixed controlled vocabulary (`VOCABULARY`). -/
def VOCABULARY : List String :=
  ["Zero Trust", "MFA", "Bastion Host", "RBAC",
   "Data At Rest", "Data In Transit", "Least Privilege", "Air Gap",
   "SLA", "Biometric", "Cryptographic Salt", "PKI",
   "Endpoint Telemetry", "SIEM", "SOC2", "GDPR",
   "OIDC", "SAML", "Kill Chain", "Honeypot"]

structure VocabDetail where
  term : String
  count : Nat
  expected : Nat
  deriving Repr, DecidableEq

structure VocabularyResult where
  violations : Nat
  details : List VocabDetail
  deriving Repr, DecidableEq

/-- `validateVocabulary`: per term, count case-insensitive occurrences;
violation contribution `|count - 1|`; detail row for non-conforming terms. -/
def validateVocabulary (text : String) : VocabularyResult :=
  VOCABULARY.foldl
    (fun acc term =>
      let count := countOccCI term.data text.data
      if count ≠ 1 then
        { violations := acc.violations + ((count : Int) - 1).natAbs,
          details := acc.details ++ [⟨term, count, 1⟩] }
      else acc)
    ⟨0, []⟩

/-! ## Heading matchers

Both the Template Validator (`src/validators/template.ts`) and the
Cross-Reference Validator (`src/validators/crossref.ts`) scan for numbered
headings via `m`-flag anchored regexes executed with `exec` in a `g` loop:

* template: `/^#{1,2}\s+\d+\.\s+(.+)$/gm`
* crossref: `/^#{1,2}\s+(\d+(?:\.\d+)?)\.\s+/gm`

`headingCore` is the shared prefix `#{1,2}\s+\d+` (greedy, with the
backtracking of `#{1,2}` resolved: a match needs one or two hashes
directly followed by whitespace). -/

/-- Match `#{1,2}` followed by a `\s` at the head of `s`; returns the
number of hashes consumed. -/
def headingHash (s : List Char) : Option Nat :=
  match s with
  | [] => none
  | [_] => none
  | c1 :: c2 :: rest =>
    if c1 = '#' then
      if c2 = '#' then
        match rest with
        | c3 :: _ => if jsWs c3 then some 2 else none
        | [] => none
      else if jsWs c2 then some 1 else none
    else none

/-- Match `#{1,2}\s+\d+` at the head of `s`: returns (consumed length,
digit run, remainder after the digits). -/
def headingCore (s : List Char) : Option (Nat × List Char × List Char) :=
  match headingHash s with
  | none => none
  | some h =>
    let afterHash := s.drop h
    let w := afterHash.takeWhile jsWs
    let afterWs := afterHash.drop w.length
    let d := afterWs.takeWhile jsDigit
    if d.isEmpty then none
    else some (h + w.length + d.length, d, afterWs.drop d.length)

/-- Tail `\s+(.+)$` of the template heading regex, applied to the text `r`
following `\d+\.`.  Greedy `\s+` with backtracking against `.+$` under the
`m` flag: returns the captured title and the number of characters of `r`
consumed by the match. -/
def templateTail (r : List Char) : Option (List Char × Nat) :=
  let W := r.takeWhile jsWs
  if W.isEmpty then none
  else if W.length < r.length then
    let i := W.length
    let R := (r.drop i).takeWhile (fun c => !jsLineTerm c)
    some (R, i + R.length)
  else
    match (((List.range r.length).filter
        (fun i => decide (1 ≤ i) && !jsLineTerm (r.getD i ' '))).reverse).head? with
    | none => none
    | some i =>
      let R := (r.drop i).takeWhile (fun c => !jsLineTerm c)
      some (R, i + R.length)

/-- One attempt of the template heading regex at a line start: returns
(section number, captured title, match length). -/
def templateHeadingMatch (s : List Char) : Option ((String × String) × Nat) :=
  match headingCore s with
  | none => none
  | some (n0, d1, rest) =>
    match rest with
    | [] => none
    | c :: r =>
      if c = '.' then
        match templateTail r with
        | none => none
        | some (title, tlen) => some ((⟨d1⟩, ⟨title⟩), n0 + 1 + tlen)
      else none

/-- One attempt of the crossref heading regex at a line start: returns
(section number, match length). -/
def crossrefHeadingMatch (s : List Char) : Option (String × Nat) :=
  match headingCore s with
  | none => none
  | some (n0, d1, rest) =>
    match rest with
    | [] => none
    | c :: rest2 =>
      if c = '.' then
        match rest2 with
        | [] => none
        | c2 :: _ =>
          if jsDigit c2 then
            let d2 := rest2.takeWhile jsDigit
            match rest2.drop d2.length with
            | [] => none
            | c3 :: rest4 =>
              if c3 = '.' then
                let w2 := rest4.takeWhile jsWs
                if w2.isEmpty then none
                else some (⟨d1 ++ '.' :: d2⟩, n0 + 1 + d2.length + 1 + w2.length)
              else none
          else
            let w2 := rest2.takeWhile jsWs
            if w2.isEmpty then none
            else some (⟨d1⟩, n0 + 1 + w2.length)
      else none

/-! ## `exec` scanning (`g` flag)

`regex.exec` in a loop finds the leftmost match at or after `lastIndex`
and resumes after the match.  For the `m`-anchored heading regexes a match
can start only at a line start (offset 0, or right after a
LineTerminator); after a match, the next position is a line start exactly
when the last matched character is a LineTerminator. -/

/-- Scan for an `^`-anchored pattern: `ls` says whether the head of `s` is
at a line start, `pos` is the absolute offset of `s` in the document.
Returns the matches with their absolute start offsets. -/
def scanAnchored (m : List Char → Option (α × Nat)) :
    Nat → List Char → Bool → Nat → List (α × Nat)
  | 0, _, _, _ => []
  | fuel + 1, s, ls, pos =>
    match s with
    | [] => []
    | c :: rest =>
      if ls then
        match m s with
        | some (a, len) =>
          if len = 0 then (a, pos) :: scanAnchored m fuel rest (jsLineTerm c) (pos + 1)
          else
            (a, pos) :: scanAnchored m fuel (s.drop len)
              (match (s.take len).getLast? with
               | some d => jsLineTerm d
               | none => ls) (pos + len)
        | none => scanAnchored m fuel rest (jsLineTerm c) (pos + 1)
      else scanAnchored m fuel rest (jsLineTerm c) (pos + 1)

/-- Scan for an unanchored pattern: leftmost match, resume after it. -/
def scanAll (m : List Char → Option (α × Nat)) :
    Nat → List Char → List α
  | 0, _ => []
  | fuel + 1, s =>
    match s with
    | [] => []
    | _ :: rest =>
      match m s with
      | some (a, len) =>
        if len = 0 then a :: scanAll m fuel rest
        else a :: scanAll m fuel (s.drop len)
      | none => scanAll m fuel rest

/-! ## Template Validator (`src/validators/template.ts`) -/

/-- The five required subsection markers (`REQUIRED_SUBSECTIONS`). -/
def REQUIRED_SUBSECTIONS : List String :=
  ["Purpose", "Scope", "Directives", "Exceptions", "Enforcement"]

/-- The headings the template validator's section parse recognises:
`(number, title, startIndex)` triples, in document order. -/
def templateSections (text : String) : List ((String × String) × Nat) :=
  scanAnchored templateHeadingMatch text.data.length text.data true 0

/-- The set (as a list) of section numbers the template validator's
section parse recognises. -/
def templateSectionNumbers (text : String) : List String :=
  (templateSections text).map (fun x => x.1.1)

/-- First offset in `s` at which `###\s+marker` matches
case-insensitively (`new RegExp("###\\s+" ++ marker, "i")`). -/
def subMarkerAt (marker : List Char) (s : List Char) : Bool :=
  match s with
  | '#' :: '#' :: '#' :: r =>
    let w := r.takeWhile jsWs
    if w.isEmpty then false else ciPrefix marker (r.drop w.length)
  | _ => false

/-- Index of the first match of `###\s+marker` in `s`, if any. -/
def findSubIdx (marker : List Char) : Nat → List Char → Option Nat
  | _, [] => none
  | i, c :: rest =>
    if subMarkerAt marker (c :: rest) then some i else findSubIdx marker (i + 1) rest

/-- `foundIndices.every((val, i, arr) => i === 0 || val > arr[i - 1])`. -/
def strictIncr : List Nat → Bool
  | [] => true
  | [_] => true
  | a :: b :: t => (a < b) && strictIncr (b :: t)

structure TemplateDetail where
  section' : String
  missing : List String
  wrongOrder : Bool
  deriving Repr, DecidableEq

structure TemplateResult where
  violations : Nat
  details : List TemplateDetail
  deriving Repr, DecidableEq

/-- Check one section's text for the required subsection markers. -/
def checkSection (name : String) (sectionText : List Char) : Nat × Option TemplateDetail :=
  let found := REQUIRED_SUBSECTIONS.map (fun sub => (sub, findSubIdx sub.data 0 sectionText))
  let missing := (found.filter (fun p => p.2.isNone)).map (fun p => p.1)
  let foundIndices := found.filterMap (fun p => p.2)
  let wrongOrder := decide (1 < foundIndices.length) && !strictIncr foundIndices
  if missing.length ≠ 0 ∨ wrongOrder then
    (missing.length + (if wrongOrder then 1 else 0), some ⟨name, missing, wrongOrder⟩)
  else (0, none)

/-- `validateTemplate`: parse the sections, give each a span running to
the next section's start (or document end), and check each span. -/
def validateTemplate (text : String) : TemplateResult :=
  let secs := templateSections text
  let n := text.data.length
  let rec go : List ((String × String) × Nat) → TemplateResult
    | [] => ⟨0, []⟩
    | ((_, name), start) :: rest =>
      let stop := match rest with
        | ((_, _), s2) :: _ => s2
        | [] => n
      let sectionText := (text.data.drop start).take (stop - start)
      let (v, d) := checkSection name sectionText
      let r := go rest
      ⟨v + r.violations, (match d with | some dd => [dd] | none => []) ++ r.details⟩
  go secs

/-! ## Cross-Reference Validator (`src/validators/crossref.ts`) -/

/-- The set (as a list) of section numbers the crossref validator collects
as existing targets (`existingSections`). -/
def crossrefSectionNumbers (text : String) : List String :=
  (scanAnchored crossrefHeadingMatch text.data.length text.data true 0).map
    (fun x => x.1)

/-- One attempt of `/[Ss]ee\s+[Ss]ection\s+(\d+(?:\.\d+)?)/` at the head of
`s`: returns ((matched text, target number), match length). -/
def refMatchAt (s : List Char) : Option ((String × String) × Nat) :=
  match s with
  | c1 :: 'e' :: 'e' :: r1 =>
    if c1 = 'S' ∨ c1 = 's' then
      let w1 := r1.takeWhile jsWs
      if w1.isEmpty then none else
      match r1.drop w1.length with
      | c2 :: 'e' :: 'c' :: 't' :: 'i' :: 'o' :: 'n' :: r2 =>
        if c2 = 'S' ∨ c2 = 's' then
          let w2 := r2.takeWhile jsWs
          if w2.isEmpty then none else
          let r3 := r2.drop w2.length
          let d1 := r3.takeWhile jsDigit
          if d1.isEmpty then none else
          let base := 3 + w1.length + 7 + w2.length + d1.length
          match r3.drop d1.length with
          | '.' :: r4 =>
            let d2 := r4.takeWhile jsDigit
            if d2.isEmpty then
              some ((⟨s.take base⟩, ⟨d1⟩), base)
            else
              some ((⟨s.take (base + 1 + d2.length)⟩, ⟨d1 ++ '.' :: d2⟩),
                base + 1 + d2.length)
          | _ => some ((⟨s.take base⟩, ⟨d1⟩), base)
        else none
      | _ => none
    else none
  | _ => none

structure CrossRefDetail where
  reference : String
  targetSection : String
  exists' : Bool
  deriving Repr, DecidableEq

structure CrossRefResult where
  violations : Nat
  details : List CrossRefDetail
  deriving Repr, DecidableEq

/-- `validateCrossRefs`: every `See Section N` whose target is not an
existing section number is one violation. -/
def validateCrossRefs (text : String) : CrossRefResult :=
  let existing := crossrefSectionNumbers text
  let refs := scanAll refMatchAt text.data.length text.data
  refs.foldl
    (fun acc r =>
      if existing.contains r.2 then acc
      else { violations := acc.violations + 1,
             details := acc.details ++ [⟨r.1, r.2, false⟩] })
    ⟨0, []⟩

/-! ## Style Validator (`src/validators/style.ts`) -/

/-- JavaScript `String.split` on a character-class-run regex: split at
each maximal run of delimiter characters, keeping empty boundary segments.
`acc` is the reversed current segment; `run` is true while stepping
through a delimiter run (then `acc = []`). -/
def splitRunsAux (p : Char → Bool) : List Char → Bool → List Char → List (List Char)
  | acc, _, [] => [acc.reverse]
  | acc, run, c :: rest =>
    if p c then
      if run then splitRunsAux p acc true rest
      else acc.reverse :: splitRunsAux p [] true rest
    else splitRunsAux p (c :: acc) false rest

def splitRuns (p : Char → Bool) (l : List Char) : List (List Char) :=
  splitRunsAux p [] false l

/-- JavaScript `String.trim`. -/
def jsTrim (s : List Char) : List Char :=
  ((s.dropWhile jsWs).reverse.dropWhile jsWs).reverse

/-- Sentence terminator class `[.!?]`. -/
def isTerm (c : Char) : Bool := c = '.' || c = '!' || c = '?'

/-- The sentence candidates of `validateStyle`: split on `[.!?]+`, trim,
discard empties and heading lines. -/
def sentencesOf (text : String) : List (List Char) :=
  ((splitRuns isTerm text.data).map jsTrim).filter
    (fun s => decide (s ≠ []) && !(s.headD ' ' = '#'))

/-- `sentence.split(/\s+/).length`. -/
def wordCount (s : List Char) : Nat := (splitRuns jsWs s).length

structure StyleResult where
  violations : Nat
  totalSentences : Nat
  longSentences : Nat
  shortRatio : ℚ
  details : List (String × Nat)
  deriving Repr, DecidableEq

/-- `Math.ceil((0.7 - shortRatio) * 10)` computed exactly over ℕ: for
`0 < total` and `10 * short < 7 * total` this equals
`⌈(7/10 - short/total) * 10⌉` (proved in `stylePenalty_eq_ceil` below);
the exact-rational value is `(7 * total - 10 * short) / total`, whose
ceiling is computed by rounding-up division. -/
def stylePenalty (short total : Nat) : Nat :=
  (7 * total - 10 * short + (total - 1)) / total

/-- `validateStyle`: long sentences (> 25 words) each count one violation;
a short-sentence ratio (≤ 12 words) below 0.7 adds
`ceil((0.7 - shortRatio) * 10)`. -/
def validateStyle (text : String) : StyleResult :=
  let sentences := sentencesOf text
  let longs := sentences.filter (fun s => decide (25 < wordCount s))
  let shortCount := (sentences.filter (fun s => decide (wordCount s ≤ 12))).length
  let shortRatio : ℚ :=
    if 0 < sentences.length then mkRat shortCount sentences.length else 1
  let violations :=
    longs.length +
      (if shortRatio < mkRat 7 10 then stylePenalty shortCount sentences.length else 0)
  { violations := violations,
    totalSentences := sentences.length,
    longSentences := longs.length,
    shortRatio := shortRatio,
    details := longs.map (fun s => (⟨s.take 50⟩ ++ "...", wordCount s)) }

/-! ## Atypicality Validator (`src/validators/atypicality.ts`) -/

inductive AtypicalityLevel where
  | low
  | mid
  | high
  deriving Repr, DecidableEq

structure AtypicalityResult where
  violations : Nat
  details : List String
  deriving Repr, DecidableEq

/-- Collector for `\b\w+\b` runs: `acc` is the reversed current word. -/
def wordsOfAux : List Char → List Char → List (List Char)
  | acc, [] => if acc.isEmpty then [] else [acc.reverse]
  | acc, c :: rest =>
    if jsWordChar c then wordsOfAux (c :: acc) rest
    else if acc.isEmpty then wordsOfAux [] rest
    else acc.reverse :: wordsOfAux [] rest

/-- `text.match(/\b\w+\b/g)`: the maximal runs of `\w` characters. -/
def wordsOf (l : List Char) : List (List Char) := wordsOfAux [] l

/-- `word.charAt(0) !== word.charAt(0).toUpperCase() && /[a-z]/i.test(...)`. -/
def midViolation (w : List Char) : Bool :=
  let c := w.headD ' '
  decide (c ≠ upChar c) && asciiLetter c

/-- Word of length ≥ 3 whose third character is a lower-case letter. -/
def highViolation (w : List Char) : Bool :=
  decide (3 ≤ w.length) && asciiLower (w.getD 2 ' ')

/-- The atypicality word loop: count every violation, but record at most
5 example details (`acc` is the (violations, details) state). -/
def atypFoldAux (tag : String) (p : List Char → Bool) (acc : Nat × List String) :
    List (List Char) → Nat × List String
  | [] => acc
  | w :: ws =>
    atypFoldAux tag p
      (if p w then
        (acc.1 + 1,
         if acc.2.length < 5 then acc.2 ++ [tag ++ (⟨w⟩ : String)] else acc.2)
      else acc) ws

def atypFold (tag : String) (p : List Char → Bool) (words : List (List Char)) :
    Nat × List String :=
  atypFoldAux tag p (0, []) words

/-- `validateAtypicality`. -/
def validateAtypicality (text : String) (level : AtypicalityLevel) : AtypicalityResult :=
  match level with
  | .low => ⟨0, []⟩
  | .mid =>
    let r := atypFold "TitleCase violation: " midViolation (wordsOf text.data)
    ⟨r.1, r.2⟩
  | .high =>
    let r := atypFold "3rdLetter violation: " highViolation (wordsOf text.data)
    ⟨r.1, r.2⟩

/-! ## Drift Scorer (`src/validators/index.ts`) -/

structure DriftScore where
  total : Nat
  vocabulary : VocabularyResult
  template : TemplateResult
  style : StyleResult
  crossRefs : CrossRefResult
  atypicality : AtypicalityResult
  deriving Repr, DecidableEq

/-- `calculateDrift`: run all five validators, total with equal weights. -/
def calculateDrift (text : String) (level : AtypicalityLevel) : DriftScore :=
  let vocabulary := validateVocabulary text
  let template := validateTemplate text
  let style := validateStyle text
  let crossRefs := validateCrossRefs text
  let atypicality := validateAtypicality text level
  { total := vocabulary.violations + template.violations + style.violations +
      crossRefs.violations + atypicality.violations,
    vocabulary := vocabulary, template := template, style := style,
    crossRefs := crossRefs, atypicality := atypicality }

/-! ## Strategy Engine

The external generation service is an oracle `gen : Nat → String`: the
text returned by the n-th `generate` call issued during one strategy
invocation (call 0 is the first call).  A deterministic service produces a
fixed such sequence for a given invocation, so quantifying over `gen`
covers every deterministic service. -/

/-! ### Repair (`src/strategies/repair.ts`, `repairEvolve`) -/

structure RepairResult where
  artifact : String
  retries : Nat
  finalScore : DriftScore
  converged : Bool
  driftHistory : List Nat
  deriving Repr, DecidableEq

/-- Build the returned record (`converged` is `score.total === 0`). -/
def mkRepairResult (artifact : String) (retries : Nat) (score : DriftScore)
    (hist : List Nat) : RepairResult :=
  ⟨artifact, retries, score, decide (score.total = 0), hist⟩

/-- The repair `while` loop: runs while `score.total > 0` and
`retries < MAX_RETRIES` (`remaining` is `MAX_RETRIES - retries`); each pass
regenerates (call index = retry number), rescoring at the default level,
and exits early when the new total fails to strictly improve. -/
def repairLoop (gen : Nat → String) :
    Nat → String → DriftScore → Nat → Nat → List Nat → RepairResult
  | 0, artifact, score, _, retries, hist => mkRepairResult artifact retries score hist
  | remaining + 1, artifact, score, prevScore, retries, hist =>
    if score.total > 0 then
      let retries2 := retries + 1
      let artifact2 := gen retries2
      let score2 := calculateDrift artifact2 .low
      let hist2 := hist ++ [score2.total]
      if score2.total ≥ prevScore then mkRepairResult artifact2 retries2 score2 hist2
      else repairLoop gen remaining artifact2 score2 score2.total retries2 hist2
    else mkRepairResult artifact retries score hist

/-- `repairEvolve`: initial patched generation (call 0), then the repair
loop with a ceiling of 3 retries.  Scores inside the strategy are computed
at the validator default (low) atypicality level, as in the source. -/
def repairEvolve (gen : Nat → String) : RepairResult :=
  let artifact := gen 0
  let score := calculateDrift artifact .low
  repairLoop gen 3 artifact score score.total 0 [score.total]

/-! ### Regeneration (`src/strategies/regeneration.ts`) -/

structure RegenerationResult where
  artifact : String
  retries : Nat
  finalScore : DriftScore
  converged : Bool
  driftHistory : List Nat
  deriving Repr, DecidableEq

/-- `regenerationEvolveSimple` (strategy C): one generation call, no
reconciliation (call 0), single score. -/
def regenerationEvolveSimple (gen : Nat → String) (level : AtypicalityLevel) :
    RegenerationResult :=
  let artifact := gen 0
  let score := calculateDrift artifact level
  ⟨artifact, 0, score, decide (score.total = 0), [score.total]⟩

/-- The regen retry loop: never stops early on non-improvement, tracks the
best (artifact, score) pair seen, stops at total = 0 or at the ceiling.
Call index of retry k is `k + 1` (call 0 is the reconciliation call, call
1 the first generation).  Returns (bestArtifact, bestScore, retries,
driftHistory). -/
def regenLoop (gen : Nat → String) (level : AtypicalityLevel) :
    Nat → String → DriftScore → Nat → String → Nat → List Nat →
      String × Nat × Nat × List Nat
  | 0, _, _, bestScore, bestArtifact, retries, hist =>
    (bestArtifact, bestScore, retries, hist)
  | remaining + 1, _artifact, score, bestScore, bestArtifact, retries, hist =>
    if score.total > 0 then
      let retries2 := retries + 1
      let next := gen (retries2 + 1)
      let nextScore := calculateDrift next level
      let hist2 := hist ++ [nextScore.total]
      let best2 := if nextScore.total < bestScore then (nextScore.total, next)
        else (bestScore, bestArtifact)
      if nextScore.total = 0 then (best2.2, best2.1, retries2, hist2)
      else regenLoop gen level remaining next nextScore best2.1 best2.2 retries2 hist2
    else (bestArtifact, bestScore, retries, hist)

/-- `regenerationEvolve` (strategies D/E): reconciliation call (call 0,
its text only feeds later prompts), initial generation (call 1), then —
when retries are enabled — the best-tracking retry loop; the returned
artifact is the best one seen and its score is recomputed. -/
def regenerationEvolve (gen : Nat → String) (useRetries : Bool)
    (level : AtypicalityLevel) : RegenerationResult :=
  let artifact := gen 1
  let score := calculateDrift artifact level
  if useRetries then
    let r := regenLoop gen level 3 artifact score score.total artifact 0 [score.total]
    ⟨r.1, r.2.2.1, calculateDrift r.1 level, decide (r.2.1 = 0), r.2.2.2⟩
  else
    ⟨artifact, 0, score, decide (score.total = 0), [score.total]⟩

/-! ### Experiment Runner iteration records (`src/engine.ts`, `runExperiment`) -/

structure IterationMetrics where
  iteration : Nat
  driftScore : Nat
  retries : Nat
  converged : Bool
  vocabularyViolations : Nat
  templateViolations : Nat
  styleViolations : Nat
  crossRefViolations : Nat
  atypicalityViolations : Nat
  driftHistory : List Nat
  deriving Repr, DecidableEq

/-- Shared sub-score projection used by every `case` of the `switch`. -/
def metricsOf (i : Nat) (score : DriftScore) (retries : Nat) (converged : Bool)
    (hist : List Nat) : IterationMetrics :=
  ⟨i, score.total, retries, converged, score.vocabulary.violations,
   score.template.violations, score.style.violations, score.crossRefs.violations,
   score.atypicality.violations, hist⟩

/-- `case incremental`: one generation, score recomputed for reporting,
`converged` is the literal `true` of the source. -/
def incrementalIteration (gen : Nat → String) (level : AtypicalityLevel)
    (i : Nat) : String × IterationMetrics :=
  let artifact := gen 0
  let score := calculateDrift artifact level
  (artifact, metricsOf i score 0 true [])

/-- `case repair`: run `repairEvolve`, then recompute the score at the
supplied atypicality level for the metrics, keeping the strategy's own
convergence flag. -/
def repairIteration (gen : Nat → String) (level : AtypicalityLevel)
    (i : Nat) : String × IterationMetrics :=
  let result := repairEvolve gen
  let score := calculateDrift result.artifact level
  (result.artifact, metricsOf i score result.retries result.converged result.driftHistory)

/-- `case regeneration`. -/
def regenerationIteration (gen : Nat → String) (level : AtypicalityLevel)
    (i : Nat) : String × IterationMetrics :=
  let result := regenerationEvolveSimple gen level
  (result.artifact, metricsOf i result.finalScore 0 result.converged [])

/-- `case regen-reconcile`. -/
def regenReconcileIteration (gen : Nat → String) (level : AtypicalityLevel)
    (i : Nat) : String × IterationMetrics :=
  let result := regenerationEvolve gen false level
  (result.artifact, metricsOf i result.finalScore 0 result.converged [])

/-- `case regen-full`. -/
def regenFullIteration (gen : Nat → String) (level : AtypicalityLevel)
    (i : Nat) : String × IterationMetrics :=
  let result := regenerationEvolve gen true level
  (result.artifact,
   metricsOf i result.finalScore result.retries result.converged result.driftHistory)

/-! ## Generation service boundary (`src/llm/client.ts`, `generate`)

One transport attempt either yields text or fails; `attempts k` is the
outcome of attempt `k` (attempts are numbered from 1 as in the source).
The model returns the overall outcome together with the list of backoff
delays slept, in units of `INITIAL_DELAY_MS`. -/

/-- The retry `for` loop after a first failure `e` on attempt
`attempt - 1`. -/
def generateGo {E : Type} (attempts : Nat → Except E String) (e : E) :
    Nat → Nat → List Nat → Except E String × List Nat
  | 0, _, delays => (.error e, delays)
  | remaining + 1, attempt, delays =>
    match attempts attempt with
    | .ok s => (.ok s, delays)
    | .error e2 => generateGo attempts e2 remaining (attempt + 1)
        (delays ++ [2 ^ (attempt - 1)])

/-- `generate`: up to `MAX_RETRIES = 5` attempts; a failed attempt `k`
sleeps `2^(k-1)` delay units; exhaustion rethrows the last error. -/
def generateModel {E : Type} (attempts : Nat → Except E String) :
    Except E String × List Nat :=
  match attempts 1 with
  | .ok s => (.ok s, [])
  | .error e => generateGo attempts e 4 2 [1]

/-! ## Concrete stub documents

Documents used as stub generation outputs in the concrete parts of the
claims: lists of vocabulary terms written as one-term sentences, so that
the template, style and cross-reference validators all score 0 and the
Drift Score total is exactly the number of missing vocabulary terms. -/

/-- First 15 vocabulary terms: Drift Score total 5. -/
def docA : String :=
  "Zero Trust. MFA. Bastion Host. RBAC. Data At Rest. Data In Transit. Least Privilege. Air Gap. SLA. Biometric. Cryptographic Salt. PKI. Endpoint Telemetry. SIEM. SOC2."

/-- First 18 vocabulary terms: Drift Score total 2. -/
def docB : String :=
  "Zero Trust. MFA. Bastion Host. RBAC. Data At Rest. Data In Transit. Least Privilege. Air Gap. SLA. Biometric. Cryptographic Salt. PKI. Endpoint Telemetry. SIEM. SOC2. GDPR. OIDC. SAML."

/-- First 13 vocabulary terms: Drift Score total 7. -/
def docC : String :=
  "Zero Trust. MFA. Bastion Host. RBAC. Data At Rest. Data In Transit. Least Privilege. Air Gap. SLA. Biometric. Cryptographic Salt. PKI. Endpoint Telemetry."

/-- 18 vocabulary terms omitting OIDC and SAML: Drift Score total 2,
distinct from `docB`. -/
def docD : String :=
  "Zero Trust. MFA. Bastion Host. RBAC. Data At Rest. Data In Transit. Least Privilege. Air Gap. SLA. Biometric. Cryptographic Salt. PKI. Endpoint Telemetry. SIEM. SOC2. GDPR. Kill Chain. Honeypot."

/-- Stub generation service whose regen-full attempt trajectory scores
`[5, 2, 7, 2]` (call 0 is the reconciliation call). -/
def stubGen : Nat → String
  | 1 => docA
  | 2 => docB
  | 3 => docC
  | 4 => docD
  | _ => ""

/-! ## Statement helpers -/

/-- Minimum of a list of naturals (0 for the empty list; every use is on a
non-empty list). -/
def listMin : List Nat → Nat
  | [] => 0
  | [a] => a
  | a :: b :: t => min a (listMin (b :: t))

/-- Adjacent pairs are strictly decreasing. -/
def decrB : List Nat → Bool
  | a :: b :: t => (b < a) && decrB (b :: t)
  | _ => true

/-- Every entry is non-zero. -/
def allNonzeroB (l : List Nat) : Bool := l.all (fun x => decide (x ≠ 0))

/-- Last entry (0 for the empty list; every use is on a non-empty list). -/
def lastD (l : List Nat) : Nat := l.getLast?.getD 0

theorem listMin_le_of_mem {l : List Nat} {x : Nat} (hx : x ∈ l) : listMin l ≤ x := by
  induction l with
  | nil => cases hx
  | cons a t ih =>
    cases t with
    | nil =>
      simp only [List.mem_singleton] at hx
      simp [listMin, hx]
    | cons c t2 =>
      simp only [listMin]
      rcases List.mem_cons.mp hx with h | h
      · subst h; exact min_le_left _ _
      · exact le_trans (min_le_right _ _) (ih h)

theorem le_listMin_of_forall {l : List Nat} (hne : l ≠ []) {b : Nat}
    (h : ∀ x ∈ l, b ≤ x) : b ≤ listMin l := by
  induction l with
  | nil => exact absurd rfl hne
  | cons a t ih =>
    cases t with
    | nil => simpa [listMin] using h a (by simp)
    | cons c t2 =>
      simp only [listMin]
      exact le_min (h a (by simp))
        (ih (by simp) (fun x hx => h x (List.mem_cons_of_mem _ hx)))

theorem listMin_eq_of_mem_of_le {l : List Nat} {b : Nat} (hmem : b ∈ l)
    (hle : ∀ x ∈ l, b ≤ x) : listMin l = b := by
  have h1 := listMin_le_of_mem hmem
  have h2 := le_listMin_of_forall (by rintro rfl; cases hmem) hle
  omega

theorem head?_append_left {α : Type} {l : List α} (h : l ≠ []) (l₂ : List α) :
    (l ++ l₂).head? = l.head? := by
  cases l with
  | nil => exact absurd rfl h
  | cons a t => simp

/-! ## The regen-full retry loop: best-of selection invariant -/

/-- Invariant of `regenLoop`: the best score seen so far is the minimum of
the trajectory, the best artifact rescoring gives exactly that score, the
trajectory grows by one entry per retry, and its first entry is
preserved. -/
theorem regenLoop_spec (gen : Nat → String) (level : AtypicalityLevel)
    (remaining : Nat) :
    ∀ (artifact : String) (score : DriftScore) (bs : Nat) (ba : String)
      (retries : Nat) (hist : List Nat),
      (calculateDrift ba level).total = bs →
      bs ∈ hist →
      (∀ x ∈ hist, bs ≤ x) →
      hist.length = retries + 1 →
      (calculateDrift (regenLoop gen level remaining artifact score bs ba retries hist).1
          level).total =
        (regenLoop gen level remaining artifact score bs ba retries hist).2.1 ∧
      (regenLoop gen level remaining artifact score bs ba retries hist).2.1 ∈
        (regenLoop gen level remaining artifact score bs ba retries hist).2.2.2 ∧
      (∀ x ∈ (regenLoop gen level remaining artifact score bs ba retries hist).2.2.2,
        (regenLoop gen level remaining artifact score bs ba retries hist).2.1 ≤ x) ∧
      (regenLoop gen level remaining artifact score bs ba retries hist).2.2.2.length =
        (regenLoop gen level remaining artifact score bs ba retries hist).2.2.1 + 1 ∧
      (regenLoop gen level remaining artifact score bs ba retries hist).2.2.2.head? =
        hist.head? := by
  induction remaining with
  | zero =>
    intro artifact score bs ba retries hist hba hmem hle hlen
    exact ⟨hba, hmem, hle, hlen, rfl⟩
  | succ n ih =>
    intro artifact score bs ba retries hist hba hmem hle hlen
    have hne : hist ≠ [] := by rintro rfl; cases hmem
    by_cases hpos : score.total > 0
    · have hbody : regenLoop gen level (n + 1) artifact score bs ba retries hist =
        (let retries2 := retries + 1
         let next := gen (retries2 + 1)
         let nextScore := calculateDrift next level
         let hist2 := hist ++ [nextScore.total]
         let best2 := if nextScore.total < bs then (nextScore.total, next) else (bs, ba)
         if nextScore.total = 0 then (best2.2, best2.1, retries2, hist2)
         else regenLoop gen level n next nextScore best2.1 best2.2 retries2 hist2) := by
        simp only [regenLoop, hpos, if_true]
      rw [hbody]
      simp only []
      set ns := (calculateDrift (gen (retries + 1 + 1)) level).total with hns
      have hbest :
          (calculateDrift
              (if ns < bs then (ns, gen (retries + 1 + 1)) else (bs, ba)).2 level).total =
            (if ns < bs then (ns, gen (retries + 1 + 1)) else (bs, ba)).1 := by
        by_cases hlt : ns < bs <;> simp [hlt, hba, hns]
      have hbmem :
          (if ns < bs then (ns, gen (retries + 1 + 1)) else (bs, ba)).1 ∈
            hist ++ [ns] := by
        by_cases hlt : ns < bs <;> simp [hlt, hmem]
      have hble : ∀ x ∈ hist ++ [ns],
          (if ns < bs then (ns, gen (retries + 1 + 1)) else (bs, ba)).1 ≤ x := by
        intro x hx
        rcases List.mem_append.mp hx with hx | hx
        · have := hle x hx
          by_cases hlt : ns < bs <;> · simp [hlt]; try omega
        · simp only [List.mem_singleton] at hx
          subst hx
          by_cases hlt : ns < bs <;> · simp [hlt]; try omega
      have hlen2 : (hist ++ [ns]).length = (retries + 1) + 1 := by
        simp [hlen]
      by_cases hz : ns = 0
      · simp only [hz, if_true, reduceIte]
        refine ⟨?_, ?_, ?_, ?_, ?_⟩
        · simpa [hz] using hbest
        · simpa [hz] using hbmem
        · simpa [hz] using hble
        · simpa using hlen2
        · exact head?_append_left hne _
      · simp only [hz, if_false, reduceIte]
        have := ih (gen (retries + 1 + 1)) (calculateDrift (gen (retries + 1 + 1)) level)
          _ _ (retries + 1) (hist ++ [ns]) hbest hbmem hble hlen2
        refine ⟨this.1, this.2.1, this.2.2.1, this.2.2.2.1, ?_⟩
        rw [this.2.2.2.2]
        exact head?_append_left hne _
    · have hbody : regenLoop gen level (n + 1) artifact score bs ba retries hist =
          (ba, bs, retries, hist) := by
        simp only [regenLoop, hpos, if_false, reduceIte]
      rw [hbody]
      exact ⟨hba, hmem, hle, hlen, rfl⟩

/-! ## Claim C10: Drift Score of the empty artifact -/

/-- **C10**: scoring the empty-string artifact at the default (low)
atypicality level yields total exactly 20: the vocabulary sub-score
contributes 1 per missing term for all 20 terms, and the template, style,
cross-reference and atypicality sub-scores each contribute 0. -/
theorem emptyArtifact_drift_total :
    (calculateDrift "" .low).total = 20 ∧
    (calculateDrift "" .low).vocabulary.violations = 20 ∧
    (calculateDrift "" .low).template.violations = 0 ∧
    (calculateDrift "" .low).style.violations = 0 ∧
    (calculateDrift "" .low).crossRefs.violations = 0 ∧
    (calculateDrift "" .low).atypicality.violations = 0 := by
  decide

/-! ## Claim C1: regen-full returns the best-scoring attempt -/

/-- **C1**: for the regen-full strategy (`regenerationEvolve` with retries
enabled) and any deterministic generation service, the returned artifact's
recomputed Drift Score total is the minimum of the returned drift-history
trajectory; and with the stub service whose attempts score `[5, 2, 7, 2]`,
the returned artifact is the first score-2 artifact (`docB`), not the last
attempt (`docD`). -/
theorem regenFull_returns_best_attempt :
    (∀ (gen : Nat → String) (level : AtypicalityLevel),
      (regenerationEvolve gen true level).finalScore.total =
        listMin (regenerationEvolve gen true level).driftHistory) ∧
    (regenerationEvolve stubGen true .low).driftHistory = [5, 2, 7, 2] ∧
    (regenerationEvolve stubGen true .low).artifact = docB ∧
    (regenerationEvolve stubGen true .low).finalScore.total = 2 ∧
    docB ≠ docD := by
  constructor
  · intro gen level
    have h := regenLoop_spec gen level 3 (gen 1) (calculateDrift (gen 1) level)
      ((calculateDrift (gen 1) level).total) (gen 1) 0
      [(calculateDrift (gen 1) level).total] rfl (by simp) (by simp) (by simp)
    show (calculateDrift
        (regenLoop gen level 3 (gen 1) (calculateDrift (gen 1) level)
          ((calculateDrift (gen 1) level).total) (gen 1) 0
          [(calculateDrift (gen 1) level).total]).1 level).total =
      listMin (regenLoop gen level 3 (gen 1) (calculateDrift (gen 1) level)
          ((calculateDrift (gen 1) level).total) (gen 1) 0
          [(calculateDrift (gen 1) level).total]).2.2.2
    rw [h.1, listMin_eq_of_mem_of_le h.2.1 h.2.2.1]
  · refine ⟨by decide, by decide, by decide, by decide⟩

/-! ## The repair loop: invariants -/

theorem lastD_concat (l : List Nat) (x : Nat) : lastD (l ++ [x]) = x := by
  simp [lastD, List.getLast?_concat]

theorem decrB_dropLast : ∀ l : List Nat, decrB l = true → decrB l.dropLast = true
  | [], _ => by simp [decrB]
  | [_], _ => by simp [decrB, List.dropLast]
  | a :: b :: t, h => by
    have h' : (decide (b < a) && decrB (b :: t)) = true := h
    obtain ⟨h1, h2⟩ : decide (b < a) = true ∧ decrB (b :: t) = true := by
      simpa using h'
    rw [List.dropLast_cons₂]
    cases t with
    | nil => simp [decrB, List.dropLast]
    | cons c t2 =>
      have h3 := decrB_dropLast (b :: c :: t2) h2
      rw [List.dropLast_cons₂] at h3
      rw [List.dropLast_cons₂]
      show (decide (b < a) && decrB (b :: (c :: t2).dropLast)) = true
      rw [Bool.and_eq_true]
      exact ⟨h1, h3⟩

theorem decrB_concat : ∀ l : List Nat, decrB l = true → ∀ x : Nat,
    (l = [] ∨ x < lastD l) → decrB (l ++ [x]) = true
  | [], _, x, _ => by simp [decrB]
  | [a], _, x, h => by
    rcases h with h | h
    · cases h
    · simp only [lastD, List.getLast?_singleton, Option.getD_some] at h
      simp [decrB, h]
  | a :: b :: t, hd, x, h => by
    rcases h with h | h
    · cases h
    · simp only [decrB, Bool.and_eq_true] at hd
      have htail := decrB_concat (b :: t) hd.2 x
        (Or.inr (by simpa [lastD, List.getLast?_cons_cons] using h))
      simp only [List.cons_append, decrB, Bool.and_eq_true] at htail ⊢
      refine ⟨by simpa using hd.1, ?_⟩
      simpa [List.cons_append] using htail

theorem allNonzeroB_of_dropLast {l : List Nat} (hne : l ≠ [])
    (hd : allNonzeroB l.dropLast = true) (hl : lastD l ≠ 0) :
    allNonzeroB l = true := by
  have hdl : l.dropLast ++ [l.getLast hne] = l := List.dropLast_append_getLast hne
  have hlast : l.getLast hne = lastD l := by
    simp [lastD, List.getLast?_eq_getLast l hne]
  rw [← hdl]
  simp only [allNonzeroB, List.all_append, Bool.and_eq_true] at *
  exact ⟨hd, by simp [hlast, hl]⟩

/-- The data of a finished repair run, relative to the drift history
`hist0` at loop entry. -/
def RepairOut (hist0 : List Nat) (r : RepairResult) : Prop :=
  r.finalScore = calculateDrift r.artifact .low ∧
  lastD r.driftHistory = r.finalScore.total ∧
  decrB r.driftHistory.dropLast = true ∧
  allNonzeroB r.driftHistory.dropLast = true ∧
  r.driftHistory.length = r.retries + 1 ∧
  r.retries ≤ 3 ∧
  r.driftHistory.head? = hist0.head? ∧
  r.converged = decide (r.finalScore.total = 0)

/-- Invariant of `repairLoop`: the trajectory is strictly decreasing
except possibly at its final step, zeros appear only as the final entry,
one entry is added per retry, the first entry is preserved, and the
returned artifact is the last attempt with its score. -/
theorem repairLoop_spec (gen : Nat → String) :
    ∀ (remaining : Nat) (artifact : String) (score : DriftScore) (retries : Nat)
      (hist : List Nat),
      score = calculateDrift artifact .low →
      hist ≠ [] →
      lastD hist = score.total →
      decrB hist = true →
      allNonzeroB hist.dropLast = true →
      hist.length = retries + 1 →
      retries + remaining = 3 →
      RepairOut hist (repairLoop gen remaining artifact score score.total retries hist) := by
  intro remaining
  induction remaining with
  | zero =>
    intro artifact score retries hist hsc hne hlast hdecr hnz hlen hsum
    refine ⟨hsc, hlast, decrB_dropLast _ hdecr, hnz, hlen,
      by simp only [repairLoop, mkRepairResult]; omega, rfl, rfl⟩
  | succ n ih =>
    intro artifact score retries hist hsc hne hlast hdecr hnz hlen hsum
    by_cases hpos : score.total > 0
    · have hbody : repairLoop gen (n + 1) artifact score score.total retries hist =
        (let score2 := calculateDrift (gen (retries + 1)) .low
         let hist2 := hist ++ [score2.total]
         if score2.total ≥ score.total then
           mkRepairResult (gen (retries + 1)) (retries + 1) score2 hist2
         else repairLoop gen n (gen (retries + 1)) score2 score2.total (retries + 1)
           hist2) := by
        simp only [repairLoop, hpos, if_true]
      rw [hbody]
      simp only []
      set s2 := (calculateDrift (gen (retries + 1)) .low).total with hs2
      have hnzfull : allNonzeroB hist = true :=
        allNonzeroB_of_dropLast hne hnz (by omega)
      by_cases hge : s2 ≥ score.total
      · simp only [hge, if_true, reduceIte]
        refine ⟨rfl, lastD_concat _ _, ?_, ?_, ?_,
          by simp only [mkRepairResult]; omega, ?_, rfl⟩
        · simp only [mkRepairResult]
          rw [List.dropLast_concat]
          exact hdecr
        · simp only [mkRepairResult]
          rw [List.dropLast_concat]; exact hnzfull
        · simp [mkRepairResult, hlen]
        · exact head?_append_left hne _
      · simp only [hge, if_false, reduceIte]
        have := ih (gen (retries + 1)) (calculateDrift (gen (retries + 1)) .low)
          (retries + 1) (hist ++ [s2]) rfl (by simp) (lastD_concat _ _)
          (decrB_concat _ hdecr _ (Or.inr (by omega)))
          (by rw [List.dropLast_concat]; exact hnzfull)
          (by simp [hlen]) (by omega)
        refine ⟨this.1, this.2.1, this.2.2.1, this.2.2.2.1, this.2.2.2.2.1,
          this.2.2.2.2.2.1, ?_, this.2.2.2.2.2.2.2⟩
        rw [this.2.2.2.2.2.2.1]
        exact head?_append_left hne _
    · have hbody : repairLoop gen (n + 1) artifact score score.total retries hist =
          mkRepairResult artifact retries score hist := by
        simp only [repairLoop, hpos, if_false, reduceIte]
      rw [hbody]
      refine ⟨hsc, hlast, decrB_dropLast _ hdecr, hnz, hlen,
        by simp only [mkRepairResult]; omega, rfl, rfl⟩

/-! ## Claim C3: the repair strategy's retry policy -/

/-- **C3**: for every generation service the repair loop performs at most
3 repair attempts after the initial generation (drift-history of at most
4 entries, exactly `retries + 1`), zeros occur only as the final
trajectory entry (the loop stops immediately at total = 0), every
non-final step strictly improves (a non-improving attempt ends the loop
and is kept: the returned artifact is the last attempt, whose recomputed
score is the final trajectory entry); and a stub service that always
returns one fixed non-zero-scoring text stops after exactly one
non-improving repair attempt. -/
theorem repair_early_stop_policy :
    (∀ gen : Nat → String,
      (repairEvolve gen).driftHistory.length = (repairEvolve gen).retries + 1 ∧
      (repairEvolve gen).retries ≤ 3 ∧
      allNonzeroB (repairEvolve gen).driftHistory.dropLast = true ∧
      decrB (repairEvolve gen).driftHistory.dropLast = true ∧
      (repairEvolve gen).finalScore = calculateDrift (repairEvolve gen).artifact .low ∧
      lastD (repairEvolve gen).driftHistory = (repairEvolve gen).finalScore.total) ∧
    (∀ t : String, (calculateDrift t .low).total ≠ 0 →
      (repairEvolve (fun _ => t)).retries = 1 ∧
      (repairEvolve (fun _ => t)).driftHistory =
        [(calculateDrift t .low).total, (calculateDrift t .low).total] ∧
      (repairEvolve (fun _ => t)).artifact = t) := by
  constructor
  · intro gen
    have h := repairLoop_spec gen 3 (gen 0) (calculateDrift (gen 0) .low) 0
      [(calculateDrift (gen 0) .low).total] rfl (by simp) rfl rfl (by simp [allNonzeroB])
      (by simp) rfl
    exact ⟨h.2.2.2.2.1, h.2.2.2.2.2.1, h.2.2.2.1, h.2.2.1, h.1, h.2.1⟩
  · intro t ht
    have hpos : (calculateDrift t .low).total > 0 := Nat.pos_of_ne_zero ht
    simp only [repairEvolve, repairLoop, hpos, if_true, ge_iff_le, le_refl, reduceIte,
      mkRepairResult]
    exact ⟨trivial, by simp, trivial⟩

/-- Witness for the stub part of `repair_early_stop_policy`: the empty
string scores 20 ≠ 0, and the constant-empty-string service stops after
one repair attempt with trajectory `[20, 20]`. -/
theorem repair_early_stop_policy_witness :
    (calculateDrift "" .low).total ≠ 0 ∧
    (repairEvolve (fun _ => "")).retries = 1 ∧
    (repairEvolve (fun _ => "")).driftHistory = [20, 20] := by
  have h := repair_early_stop_policy.2 "" (by decide)
  exact ⟨by decide, h.1, by rw [h.2.1]; decide⟩

/-! ## Claim C9: drift-history length and first entry -/

/-- **C9**: for `repairEvolve`, and for `regenerationEvolve` with retries
enabled, the returned drift history has exactly `retries + 1` entries and
its first entry is the Drift Score total of the initial generation
attempt. -/
theorem driftHistory_length_and_head :
    (∀ gen : Nat → String,
      (repairEvolve gen).driftHistory.length = (repairEvolve gen).retries + 1 ∧
      (repairEvolve gen).driftHistory.head? =
        some (calculateDrift (gen 0) .low).total) ∧
    (∀ (gen : Nat → String) (level : AtypicalityLevel),
      (regenerationEvolve gen true level).driftHistory.length =
        (regenerationEvolve gen true level).retries + 1 ∧
      (regenerationEvolve gen true level).driftHistory.head? =
        some (calculateDrift (gen 1) level).total) := by
  constructor
  · intro gen
    have h := repairLoop_spec gen 3 (gen 0) (calculateDrift (gen 0) .low) 0
      [(calculateDrift (gen 0) .low).total] rfl (by simp) rfl rfl (by simp [allNonzeroB])
      (by simp) rfl
    exact ⟨h.2.2.2.2.1, h.2.2.2.2.2.2.1⟩
  · intro gen level
    have h := regenLoop_spec gen level 3 (gen 1) (calculateDrift (gen 1) level)
      ((calculateDrift (gen 1) level).total) (gen 1) 0
      [(calculateDrift (gen 1) level).total] rfl (by simp) (by simp) (by simp)
    exact ⟨h.2.2.2.1, h.2.2.2.2⟩

/-! ## Claim C2: the convergence flag -/

/-- **C2 counterexample**: the claim "for every strategy the convergence
flag is true iff the final Drift Score total is 0" fails: the incremental
case of the runner records the literal `true`.  With a service returning
the empty string, the recorded metrics have `converged = true` while the
recorded drift total is 20. -/
theorem convergence_flag_counterexample :
    (incrementalIteration (fun _ => "") .low 1).2.converged = true ∧
    (incrementalIteration (fun _ => "") .low 1).2.driftScore = 20 ∧
    ¬ ((incrementalIteration (fun _ => "") .low 1).2.converged = true ↔
       (incrementalIteration (fun _ => "") .low 1).2.driftScore = 0) := by
  refine ⟨rfl, by decide, ?_⟩
  intro h
  have h20 : (incrementalIteration (fun _ => "") .low 1).2.driftScore = 20 := by decide
  have := h.mp rfl
  omega

/-- **C2 amended**: the `regeneration`, `regen-reconcile` and `regen-full`
iteration records have `converged` true iff the recorded drift total (at
the supplied atypicality level) is 0; the `repair` record's flag is true
iff the total of the returned artifact computed at the validator-default
(low) level is 0 — which coincides with the recorded total exactly when
the supplied level is low; and the `incremental` record's flag is the
constant `true` regardless of the score. -/
theorem convergence_flag_amended :
    (∀ (gen : Nat → String) (level : AtypicalityLevel) (i : Nat),
      (incrementalIteration gen level i).2.converged = true) ∧
    (∀ (gen : Nat → String) (level : AtypicalityLevel) (i : Nat),
      ((repairIteration gen level i).2.converged = true ↔
        (calculateDrift (repairEvolve gen).artifact .low).total = 0)) ∧
    (∀ (gen : Nat → String) (i : Nat),
      ((repairIteration gen .low i).2.converged = true ↔
        (repairIteration gen .low i).2.driftScore = 0)) ∧
    (∀ (gen : Nat → String) (level : AtypicalityLevel) (i : Nat),
      ((regenerationIteration gen level i).2.converged = true ↔
        (regenerationIteration gen level i).2.driftScore = 0)) ∧
    (∀ (gen : Nat → String) (level : AtypicalityLevel) (i : Nat),
      ((regenReconcileIteration gen level i).2.converged = true ↔
        (regenReconcileIteration gen level i).2.driftScore = 0)) ∧
    (∀ (gen : Nat → String) (level : AtypicalityLevel) (i : Nat),
      ((regenFullIteration gen level i).2.converged = true ↔
        (regenFullIteration gen level i).2.driftScore = 0)) := by
  have hrep : ∀ gen : Nat → String,
      (repairEvolve gen).converged =
        decide ((calculateDrift (repairEvolve gen).artifact .low).total = 0) := by
    intro gen
    have h := repairLoop_spec gen 3 (gen 0) (calculateDrift (gen 0) .low) 0
      [(calculateDrift (gen 0) .low).total] rfl (by simp) rfl rfl (by simp [allNonzeroB])
      (by simp) rfl
    show (repairLoop gen 3 (gen 0) (calculateDrift (gen 0) .low)
        (calculateDrift (gen 0) .low).total 0
        [(calculateDrift (gen 0) .low).total]).converged =
      decide ((calculateDrift (repairLoop gen 3 (gen 0) (calculateDrift (gen 0) .low)
        (calculateDrift (gen 0) .low).total 0
        [(calculateDrift (gen 0) .low).total]).artifact .low).total = 0)
    rw [h.2.2.2.2.2.2.2, h.1]
  refine ⟨fun gen level i => rfl, ?_, ?_, ?_, ?_, ?_⟩
  · intro gen level i
    show (repairEvolve gen).converged = true ↔ _
    rw [hrep gen]
    exact decide_eq_true_iff
  · intro gen i
    show (repairEvolve gen).converged = true ↔
      (calculateDrift (repairEvolve gen).artifact .low).total = 0
    rw [hrep gen]
    exact decide_eq_true_iff
  · intro gen level i
    show decide ((calculateDrift (gen 0) level).total = 0) = true ↔
      (calculateDrift (gen 0) level).total = 0
    exact decide_eq_true_iff
  · intro gen level i
    show decide ((calculateDrift (gen 1) level).total = 0) = true ↔
      (calculateDrift (gen 1) level).total = 0
    exact decide_eq_true_iff
  · intro gen level i
    have h := regenLoop_spec gen level 3 (gen 1) (calculateDrift (gen 1) level)
      ((calculateDrift (gen 1) level).total) (gen 1) 0
      [(calculateDrift (gen 1) level).total] rfl (by simp) (by simp) (by simp)
    show decide ((regenLoop gen level 3 (gen 1) (calculateDrift (gen 1) level)
        ((calculateDrift (gen 1) level).total) (gen 1) 0
        [(calculateDrift (gen 1) level).total]).2.1 = 0) = true ↔
      (calculateDrift (regenLoop gen level 3 (gen 1) (calculateDrift (gen 1) level)
        ((calculateDrift (gen 1) level).total) (gen 1) 0
        [(calculateDrift (gen 1) level).total]).1 level).total = 0
    rw [h.1]
    exact decide_eq_true_iff

/-! ## Claim C8: transport retry with exponential backoff -/

/-- **C8**: `generate` makes up to 5 attempts; each failed attempt `k`
sleeps `2^(k-1)` delay units (initial delay 1, doubling); if all 5
attempts fail, the last error propagates unmodified; the first successful
attempt's text is returned (having slept the delays of the preceding
failures only). -/
theorem generate_retry_backoff :
    (∀ (E : Type) (attempts : Nat → Except E String) (err : Nat → E),
      (∀ k, 1 ≤ k → k ≤ 5 → attempts k = .error (err k)) →
      generateModel attempts = (.error (err 5), [1, 2, 4, 8, 16])) ∧
    (∀ (E : Type) (attempts : Nat → Except E String) (s : String) (j : Nat),
      1 ≤ j → j ≤ 5 → attempts j = .ok s →
      (∀ k, 1 ≤ k → k < j → ∃ e, attempts k = .error e) →
      generateModel attempts = (.ok s, (List.range (j - 1)).map (fun k => 2 ^ k))) := by
  constructor
  · intro E attempts err h
    have h1 := h 1 (by omega) (by omega)
    have h2 := h 2 (by omega) (by omega)
    have h3 := h 3 (by omega) (by omega)
    have h4 := h 4 (by omega) (by omega)
    have h5 := h 5 (by omega) (by omega)
    simp [generateModel, generateGo, h1, h2, h3, h4, h5]
  · intro E attempts s j hj1 hj5 hok hfail
    interval_cases j
    · simp only [generateModel, hok]
      rfl
    · obtain ⟨e1, he1⟩ := hfail 1 (by omega) (by omega)
      simp [generateModel, generateGo, he1, hok]
      decide
    · obtain ⟨e1, he1⟩ := hfail 1 (by omega) (by omega)
      obtain ⟨e2, he2⟩ := hfail 2 (by omega) (by omega)
      simp [generateModel, generateGo, he1, he2, hok]
      decide
    · obtain ⟨e1, he1⟩ := hfail 1 (by omega) (by omega)
      obtain ⟨e2, he2⟩ := hfail 2 (by omega) (by omega)
      obtain ⟨e3, he3⟩ := hfail 3 (by omega) (by omega)
      simp [generateModel, generateGo, he1, he2, he3, hok]
      decide
    · obtain ⟨e1, he1⟩ := hfail 1 (by omega) (by omega)
      obtain ⟨e2, he2⟩ := hfail 2 (by omega) (by omega)
      obtain ⟨e3, he3⟩ := hfail 3 (by omega) (by omega)
      obtain ⟨e4, he4⟩ := hfail 4 (by omega) (by omega)
      simp [generateModel, generateGo, he1, he2, he3, he4, hok]
      decide

/-- Witness for `generate_retry_backoff`: a concrete always-failing
service propagates the attempt-5 error after delays `[1, 2, 4, 8, 16]`,
and a concrete service succeeding on attempt 3 returns its text after
delays `[1, 2]`. -/
theorem generate_retry_backoff_witness :
    generateModel (fun _ => (.error 7 : Except Nat String)) =
      (.error 7, [1, 2, 4, 8, 16]) ∧
    generateModel (fun k => if k = 3 then .ok "hi" else (.error k : Except Nat String)) =
      (.ok "hi", [1, 2]) := by
  constructor
  · exact generate_retry_backoff.1 Nat (fun _ => .error 7) (fun _ => 7)
      (fun k _ _ => rfl)
  · have h := generate_retry_backoff.2 Nat
      (fun k => if k = 3 then .ok "hi" else (.error k : Except Nat String)) "hi" 3
      (by omega) (by omega) (by simp)
      (by intro k hk1 hk3; exact ⟨k, by simp; omega⟩)
    rw [h]
    rfl

/-! ## Claim C7: third-character-capitalization atypicality -/

theorem atypFoldAux_spec (tag : String) (p : List Char → Bool) :
    ∀ (ws : List (List Char)) (acc : Nat × List String),
      (atypFoldAux tag p acc ws).1 = acc.1 + (ws.filter p).length ∧
      (acc.2.length = min acc.1 5 →
        (atypFoldAux tag p acc ws).2.length = min (atypFoldAux tag p acc ws).1 5) := by
  intro ws
  induction ws with
  | nil => intro acc; exact ⟨by simp [atypFoldAux], fun h => by simpa [atypFoldAux] using h⟩
  | cons w t ih =>
    intro acc
    by_cases hp : p w
    · have hstep : atypFoldAux tag p acc (w :: t) =
          atypFoldAux tag p
            (acc.1 + 1,
             if acc.2.length < 5 then acc.2 ++ [tag ++ (⟨w⟩ : String)] else acc.2) t := by
        simp [atypFoldAux, hp]
      rw [hstep]
      constructor
      · rw [(ih _).1]
        simp [hp, Nat.add_comm, Nat.add_assoc, Nat.add_left_comm]
      · intro hinv
        refine (ih _).2 ?_
        by_cases hlt : acc.2.length < 5
        · simp only [hlt, if_true, reduceIte, List.length_append, List.length_singleton]
          omega
        · simp only [hlt, if_false, reduceIte]
          omega
    · have hstep : atypFoldAux tag p acc (w :: t) = atypFoldAux tag p acc t := by
        simp [atypFoldAux, hp]
      rw [hstep]
      refine ⟨?_, (ih _).2⟩
      rw [(ih _).1]
      simp [hp]

/-- **C7**: at the third-character-capitalization (high) level, the
violation count is exactly the number of word tokens of length ≥ 3 whose
third character is a lower-case ASCII letter (shorter words never count),
the detail list is capped at 5 examples while the counter is uncapped;
"test" is a violation, "teSt" and "ab" are not. -/
theorem atypicality_high_third_char :
    (∀ text : String,
      (validateAtypicality text .high).violations =
        ((wordsOf text.data).filter
          (fun w => decide (3 ≤ w.length) && asciiLower (w.getD 2 ' '))).length ∧
      (validateAtypicality text .high).details.length =
        min (validateAtypicality text .high).violations 5 ∧
      (validateAtypicality text .high).details.length ≤ 5) ∧
    (validateAtypicality "test" .high).violations = 1 ∧
    (validateAtypicality "teSt" .high).violations = 0 ∧
    (validateAtypicality "ab" .high).violations = 0 := by
  refine ⟨?_, by decide, by decide, by decide⟩
  intro text
  have h := atypFoldAux_spec "3rdLetter violation: " highViolation
    (wordsOf text.data) (0, [])
  have hv : (validateAtypicality text .high).violations =
      (atypFold "3rdLetter violation: " highViolation (wordsOf text.data)).1 := rfl
  have hd : (validateAtypicality text .high).details =
      (atypFold "3rdLetter violation: " highViolation (wordsOf text.data)).2 := rfl
  have hcap := h.2 (by simp)
  refine ⟨?_, ?_, ?_⟩
  · rw [hv]
    show (atypFoldAux "3rdLetter violation: " highViolation (0, []) (wordsOf text.data)).1 = _
    rw [h.1]
    show 0 + (List.filter highViolation (wordsOf text.data)).length = _
    rw [Nat.zero_add]
    rfl
  · rw [hv, hd]
    exact hcap
  · rw [hd]
    show (atypFoldAux "3rdLetter violation: " highViolation (0, [])
      (wordsOf text.data)).2.length ≤ 5
    omega

/-! ## Claim C6: the style validator's violation formula -/

/-- 26 one-word tokens, no terminator: one 26-word sentence. -/
def sentence26 : String := String.intercalate " " (List.replicate 26 "word")

/-- 25 one-word tokens, no terminator: one 25-word sentence. -/
def sentence25 : String := String.intercalate " " (List.replicate 25 "word")

/-- `stylePenalty` computes the exact rational ceiling of
`(7/10 - short/total) * 10`. -/
theorem stylePenalty_eq_ceil (s n : Nat) (hn : 0 < n) (h : 10 * s < 7 * n) :
    (stylePenalty s n : Int) = ⌈((7 : ℚ)/10 - (s : ℚ)/(n : ℚ)) * 10⌉ := by
  have hnq : (0 : ℚ) < (n : ℚ) := by exact_mod_cast hn
  have hle : 10 * s ≤ 7 * n := le_of_lt h
  have ha : ((7 * n - 10 * s : ℕ) : ℚ) / (n : ℚ) =
      ((7 : ℚ)/10 - (s : ℚ)/(n : ℚ)) * 10 := by
    rw [Nat.cast_sub hle]
    push_cast
    field_simp
    ring
  rw [← ha]
  set a := 7 * n - 10 * s with hadef
  have ha1 : 1 ≤ a := by omega
  have hdm := Nat.div_add_mod (a + (n - 1)) n
  have hmod := Nat.mod_lt (a + (n - 1)) hn
  set k := (a + (n - 1)) / n with hkdef
  set m := n * k with hmdef
  have hb1 : m ≤ a + (n - 1) := by omega
  have hb2 : a ≤ m := by omega
  have hgoal : stylePenalty s n = k := rfl
  rw [hgoal]
  have hmq : (m : ℚ) = (k : ℚ) * (n : ℚ) := by rw [hmdef]; push_cast; ring
  symm
  rw [Int.ceil_eq_iff]
  refine ⟨?_, ?_⟩
  · have hzz : (m : Int) - (n : Int) < (a : Int) := by omega
    have hz : (m : ℚ) - (n : ℚ) < (a : ℚ) := by exact_mod_cast hzz
    rw [lt_div_iff₀ hnq]
    push_cast
    calc ((k : ℚ) - 1) * (n : ℚ) = (m : ℚ) - (n : ℚ) := by rw [hmq]; ring
      _ < (a : ℚ) := hz
  · have hz : (a : ℚ) ≤ (m : ℚ) := by exact_mod_cast hb2
    rw [div_le_iff₀ hnq]
    push_cast
    calc (a : ℚ) ≤ (m : ℚ) := hz
      _ = (k : ℚ) * (n : ℚ) := hmq

/-- **C6**: the style violation count is
`longSentences + (shortRatio < 0.7 ? ceil((0.7 - shortRatio) * 10) : 0)`,
where a long sentence has more than 25 whitespace-delimited words (26
counts, 25 does not), and `shortRatio` is the fraction of sentences of at
most 12 words, defined as 1 for zero sentences. -/
theorem style_violation_formula :
    (∀ text : String,
      (validateStyle text).longSentences =
        ((sentencesOf text).filter (fun s => decide (25 < wordCount s))).length ∧
      (validateStyle text).shortRatio =
        (if 0 < (sentencesOf text).length then
          ((((sentencesOf text).filter (fun s => decide (wordCount s ≤ 12))).length : ℚ)) /
            (((sentencesOf text).length : ℚ))
         else 1) ∧
      (validateStyle text).violations =
        (validateStyle text).longSentences +
          (if (validateStyle text).shortRatio < (7:ℚ)/10 then
            (⌈((7:ℚ)/10 - (validateStyle text).shortRatio) * 10⌉).toNat
           else 0)) ∧
    (validateStyle sentence26).longSentences = 1 ∧
    (validateStyle sentence26).violations = 8 ∧
    (validateStyle sentence25).longSentences = 0 ∧
    (validateStyle sentence25).violations = 7 ∧
    (validateStyle "").totalSentences = 0 ∧
    (validateStyle "").shortRatio = 1 ∧
    (validateStyle "").violations = 0 := by
  refine ⟨?_, by decide, by decide, by decide, by decide, by decide, by decide, by decide⟩
  intro text
  have hmk7 : mkRat 7 10 = (7:ℚ)/10 := by
    rw [Rat.mkRat_eq_div]; norm_num
  have hmk : ∀ s n : Nat, (mkRat s n : ℚ) = (s:ℚ)/(n:ℚ) := by
    intro s n; rw [Rat.mkRat_eq_div]; push_cast; ring
  set sents := sentencesOf text with hsents
  set n := sents.length with hn
  set sc := (sents.filter (fun s => decide (wordCount s ≤ 12))).length with hsc
  have hlong : (validateStyle text).longSentences =
      (sents.filter (fun s => decide (25 < wordCount s))).length := rfl
  have hratio : (validateStyle text).shortRatio =
      (if 0 < n then mkRat sc n else 1) := rfl
  have hviol : (validateStyle text).violations =
      (sents.filter (fun s => decide (25 < wordCount s))).length +
        (if (if 0 < n then mkRat sc n else 1) < mkRat 7 10 then stylePenalty sc n
         else 0) := rfl
  refine ⟨hlong, ?_, ?_⟩
  · rw [hratio]
    by_cases hpos : 0 < n
    · simp only [hpos, if_true, reduceIte, hmk]
    · simp only [hpos, if_false, reduceIte]
  · rw [hviol, hlong, hratio]
    by_cases hpos : 0 < n
    · simp only [hpos, if_true, reduceIte, hmk, hmk7]
      by_cases hc : (sc:ℚ)/(n:ℚ) < (7:ℚ)/10
      · simp only [hc, if_true, reduceIte]
        have hnq : (0:ℚ) < (n:ℚ) := by exact_mod_cast hpos
        have hcc : 10 * sc < 7 * n := by
          rw [div_lt_div_iff₀ hnq (by norm_num : (0:ℚ) < 10)] at hc
          have h2 : sc * 10 < 7 * n := by exact_mod_cast hc
          omega
        have hb := stylePenalty_eq_ceil sc n hpos hcc
        rw [← hb]
        simp
      · simp only [hc, if_false, reduceIte]
    · simp only [hpos, if_false, reduceIte, hmk7]
      norm_num

/-! ## Claim C5: the vocabulary violation formula -/

/-- A pattern never case-insensitively overlaps itself: no proper shifted
copy of the pattern is a case-insensitive prefix of the pattern. -/
def noSelfOverlap (pat : List Char) : Bool :=
  (List.range pat.length).all (fun k => decide (k = 0) || !ciPrefix (pat.drop k) pat)

theorem countOccCIAux_skip (pat : List Char) :
    ∀ (k : Nat) (l : List Char), countOccCIAux pat k l = countOccCIAux pat 0 (l.drop k) := by
  intro k
  induction k with
  | zero => intro l; rfl
  | succ n ih =>
    intro l
    cases l with
    | nil => simp [countOccCIAux]
    | cons c rest =>
      show countOccCIAux pat n rest = _
      rw [ih rest, List.drop_succ_cons]

theorem countPositions_step (pat : List Char) (hne : pat ≠ []) :
    ∀ t : List Char, countPositions pat t =
      (if ciPrefix pat t then 1 else 0) + countPositions pat (t.drop 1) := by
  intro t
  cases t with
  | nil =>
    have : ciPrefix pat [] = false := by
      cases pat with
      | nil => exact absurd rfl hne
      | cons p ps => simp [ciPrefix]
    simp [countPositions, this]
  | cons c rest => rfl

theorem countPositions_dropBlock (pat : List Char) (hne : pat ≠ []) :
    ∀ (j : Nat), 1 ≤ j →
      ∀ t : List Char, (∀ i, 0 < i → i < j → ciPrefix pat (t.drop i) = false) →
      countPositions pat t = (if ciPrefix pat t then 1 else 0) + countPositions pat (t.drop j) := by
  intro j
  induction j with
  | zero => omega
  | succ n ih =>
    intro _ t hno
    by_cases hn1 : 1 ≤ n
    · have h1 := ih hn1 t (fun i hi1 hi2 => hno i hi1 (by omega))
      rw [h1]
      congr 1
      have h2 := countPositions_step pat hne (t.drop n)
      rw [List.drop_drop] at h2
      rw [hno n (by omega) (by omega)] at h2
      simpa [Nat.add_comm] using h2
    · have hn0 : n = 0 := by omega
      subst hn0
      exact countPositions_step pat hne t

/-- For a pattern with no case-insensitive self-overlap, the `g`-flag scan
count equals the number of matching positions. -/
theorem countOccCI_eq_countPositions (pat : List Char) (hne : pat ≠ [])
    (hnb : noSelfOverlap pat = true) :
    ∀ text : List Char, countOccCI pat text = countPositions pat text := by
  have hnb' : ∀ k, 0 < k → k < pat.length → ¬ ciPrefix (pat.drop k) pat = true := by
    intro k hk1 hk2 hpre
    have := (List.all_eq_true.mp hnb) k (by simpa using hk2)
    simp only [Bool.or_eq_true, decide_eq_true_eq, Bool.not_eq_true'] at this
    rcases this with h | h
    · omega
    · rw [hpre] at h; cases h
  have main : ∀ (N : Nat) (text : List Char), text.length ≤ N →
      countOccCI pat text = countPositions pat text := by
    intro N
    induction N with
    | zero =>
      intro text hlen
      have : text = [] := List.eq_nil_of_length_eq_zero (by omega)
      subst this
      rfl
    | succ N ih =>
      intro text hlen
      cases text with
      | nil => rfl
      | cons c rest =>
        by_cases hm : ciPrefix pat (c :: rest) = true
        · have hcond : (ciPrefix pat (c :: rest) && decide (pat ≠ [])) = true := by
            simp [hm, hne]
          have hunf : countOccCI pat (c :: rest) =
              1 + countOccCIAux pat (pat.length - 1) rest := by
            show countOccCIAux pat 0 (c :: rest) = _
            rw [show countOccCIAux pat 0 (c :: rest) =
              if ciPrefix pat (c :: rest) && decide (pat ≠ []) then
                1 + countOccCIAux pat (pat.length - 1) rest
              else countOccCIAux pat 0 rest from rfl, hcond]
            simp
          have hp1 : 1 ≤ pat.length := by
            cases pat with
            | nil => exact absurd rfl hne
            | cons p ps => simp
          have hdropeq : rest.drop (pat.length - 1) = (c :: rest).drop pat.length := by
            conv_rhs => rw [show pat.length = (pat.length - 1) + 1 from by omega]
            rw [List.drop_succ_cons]
          have hnomid : ∀ i, 0 < i → i < pat.length →
              ciPrefix pat ((c :: rest).drop i) = false := by
            intro i hi1 hi2
            by_contra hcontra
            have hmi : ciPrefix pat ((c :: rest).drop i) = true := by
              revert hcontra
              cases ciPrefix pat ((c :: rest).drop i) <;> simp
            exfalso
            refine hnb' i hi1 hi2 ?_
            have h1 : (pat.map upChar).IsPrefix ((c :: rest).map upChar) := by
              simpa [ciPrefix, List.isPrefixOf_iff_prefix] using hm
            have h2 : (pat.map upChar).IsPrefix (((c :: rest).drop i).map upChar) := by
              simpa [ciPrefix, List.isPrefixOf_iff_prefix] using hmi
            rw [List.map_drop] at h2
            have h3 : ((pat.map upChar).drop i).IsPrefix (((c :: rest).map upChar).drop i) :=
              h1.drop i
            have h4 : ((pat.map upChar).drop i).IsPrefix (pat.map upChar) := by
              refine List.prefix_of_prefix_length_le h3 h2 ?_
              simp
            simpa [ciPrefix, List.isPrefixOf_iff_prefix, List.map_drop] using h4
          have hpos : countPositions pat (c :: rest) =
              1 + countPositions pat ((c :: rest).drop pat.length) := by
            have := countPositions_dropBlock pat hne pat.length hp1 (c :: rest) hnomid
            rw [this, hm]
            simp
          rw [hunf, hpos, countOccCIAux_skip, hdropeq]
          have hlen2 : ((c :: rest).drop pat.length).length ≤ N := by
            simp only [List.length_drop, List.length_cons] at *
            omega
          exact congrArg (1 + ·) (ih _ hlen2)
        · have hcond : (ciPrefix pat (c :: rest) && decide (pat ≠ [])) = false := by
            simp [hm]
          have hunf : countOccCI pat (c :: rest) = countOccCI pat rest := by
            show countOccCIAux pat 0 (c :: rest) = _
            rw [show countOccCIAux pat 0 (c :: rest) =
              if ciPrefix pat (c :: rest) && decide (pat ≠ []) then
                1 + countOccCIAux pat (pat.length - 1) rest
              else countOccCIAux pat 0 rest from rfl, hcond]
            simp [countOccCI]
          have hpos : countPositions pat (c :: rest) = countPositions pat rest := by
            show (if ciPrefix pat (c :: rest) then 1 else 0) + countPositions pat rest = _
            simp [hm]
          rw [hunf, hpos]
          exact ih rest (by simpa using Nat.le_of_succ_le_succ (by simpa using hlen))
  intro text
  exact main text.length text le_rfl

/-- Document with PKI twice, MFA absent, and the other 18 vocabulary
terms exactly once. -/
def docPKItwice : String :=
  "Zero Trust. Bastion Host. RBAC. Data At Rest. Data In Transit. Least Privilege. Air Gap. SLA. Biometric. Cryptographic Salt. PKI. PKI. Endpoint Telemetry. SIEM. SOC2. GDPR. OIDC. SAML. Kill Chain. Honeypot."

/-- Document with every vocabulary term exactly once. -/
def docFull : String :=
  "Zero Trust. MFA. Bastion Host. RBAC. Data At Rest. Data In Transit. Least Privilege. Air Gap. SLA. Biometric. Cryptographic Salt. PKI. Endpoint Telemetry. SIEM. SOC2. GDPR. OIDC. SAML. Kill Chain. Honeypot."

theorem validateVocabulary_foldl (text : String) :
    ∀ (terms : List String) (acc : VocabularyResult),
      (terms.foldl (fun (acc : VocabularyResult) (term : String) =>
          if countOccCI term.data text.data ≠ 1 then
            { violations := acc.violations +
                ((countOccCI term.data text.data : Int) - 1).natAbs,
              details := acc.details ++ [⟨term, countOccCI term.data text.data, 1⟩] }
          else acc) acc).violations =
        acc.violations +
          (terms.map (fun term =>
            ((countOccCI term.data text.data : Int) - 1).natAbs)).sum := by
  intro terms
  induction terms with
  | nil => intro acc; simp
  | cons t ts ih =>
    intro acc
    simp only [List.foldl_cons, List.map_cons, List.sum_cons]
    by_cases hc : countOccCI t.data text.data ≠ 1
    · rw [if_pos hc, ih]
      simp [Nat.add_comm, Nat.add_assoc, Nat.add_left_comm]
    · rw [if_neg hc, ih]
      push_neg at hc
      simp [hc]

/-- **C5**: vocabulary violations equal the sum over the 20 terms of
`|count - 1|`, where `count` — the number of case-insensitive substring
occurrences — is computed identically by the validator's global scan and
by plain position counting (no vocabulary term can overlap itself); the
PKI-twice/MFA-missing document scores exactly 2, and a document with
every term exactly once scores 0. -/
theorem vocabulary_violation_formula :
    (∀ text : String,
      (validateVocabulary text).violations =
        (VOCABULARY.map (fun term =>
          ((countOccCI term.data text.data : Int) - 1).natAbs)).sum) ∧
    (∀ (text : String), ∀ term ∈ VOCABULARY,
      countOccCI term.data text.data = countPositions term.data text.data) ∧
    countOccCI "PKI".data docPKItwice.data = 2 ∧
    countOccCI "MFA".data docPKItwice.data = 0 ∧
    (VOCABULARY.all (fun t =>
      decide (t = "PKI") || decide (t = "MFA") ||
        decide (countOccCI t.data docPKItwice.data = 1))) = true ∧
    (validateVocabulary docPKItwice).violations = 2 ∧
    (validateVocabulary docFull).violations = 0 := by
  refine ⟨?_, ?_, by decide, by decide, by decide, by decide, by decide⟩
  · intro text
    show (VOCABULARY.foldl (fun (acc : VocabularyResult) (term : String) =>
        if countOccCI term.data text.data ≠ 1 then
          { violations := acc.violations +
              ((countOccCI term.data text.data : Int) - 1).natAbs,
            details := acc.details ++ [⟨term, countOccCI term.data text.data, 1⟩] }
        else acc) ⟨0, []⟩).violations = _
    rw [validateVocabulary_foldl text VOCABULARY ⟨0, []⟩]
    simp
  · have hall : VOCABULARY.all
        (fun t => noSelfOverlap t.data && decide (t.data ≠ [])) = true := by decide
    intro text term hmem
    have h := (List.all_eq_true.mp hall) term hmem
    simp only [Bool.and_eq_true, decide_eq_true_eq] at h
    exact countOccCI_eq_countPositions term.data h.2 h.1 text.data

/-- Witness for `vocabulary_violation_formula`: the scan count and the
position count coincide for the term PKI on the PKI-twice document. -/
theorem vocabulary_violation_formula_witness :
    "PKI" ∈ VOCABULARY ∧
    countOccCI "PKI".data docPKItwice.data = countPositions "PKI".data docPKItwice.data :=
  ⟨by decide, vocabulary_violation_formula.2.1 docPKItwice "PKI" (by decide)⟩

/-! ## Claim C4: heading-pattern lemmas -/

theorem jsWs_ne_hash {c : Char} (h : jsWs c = true) : c ≠ '#' := by
  intro hc; subst hc; revert h; decide

theorem jsDigit_ne_hash {c : Char} (h : jsDigit c = true) : c ≠ '#' := by
  intro hc; subst hc; revert h; decide

theorem takeWhile_pred_at (p : Char → Bool) :
    ∀ (l : List Char) (j : Nat), j < (l.takeWhile p).length → p (l.getD j ' ') = true := by
  intro l
  induction l with
  | nil => intro j h; simp [List.takeWhile] at h
  | cons c cs ih =>
    intro j h
    by_cases hp : p c
    · rw [List.takeWhile_cons_of_pos hp] at h
      cases j with
      | zero => simpa [List.getD] using hp
      | succ n =>
        simp only [List.length_cons, Nat.succ_lt_succ_iff] at h
        simpa [List.getD] using ih n h
    · rw [List.takeWhile_cons_of_neg hp] at h
      simp at h

theorem getD_drop_add (l : List Char) (i j : Nat) :
    (l.drop i).getD j ' ' = l.getD (i + j) ' ' := by
  simp [List.getD_eq_getElem?_getD, List.getElem?_drop]

theorem getLast?_take_of_le (l : List Char) (n : Nat) (h1 : 0 < n) (h2 : n ≤ l.length) :
    (l.take n).getLast? = some (l.getD (n - 1) ' ') := by
  have hlen : (l.take n).length = n := by simp [Nat.min_eq_left h2]
  rw [List.getLast?_eq_getElem?, hlen]
  rw [List.getElem?_take, if_pos (by omega)]
  rw [List.getD_eq_getElem?_getD]
  have hlt : n - 1 < l.length := by omega
  rw [List.getElem?_eq_getElem hlt]
  rfl

theorem headingHash_spec {s : List Char} {h0 : Nat} (hh : headingHash s = some h0) :
    (h0 = 1 ∨ h0 = 2) ∧ s.getD 0 ' ' = '#' ∧ h0 < s.length := by
  rcases s with _ | ⟨c1, _ | ⟨c2, rest⟩⟩
  · simp [headingHash] at hh
  · simp [headingHash] at hh
  · by_cases h1 : c1 = '#'
    · subst h1
      by_cases h2 : c2 = '#'
      · subst h2
        cases rest with
        | nil => simp [headingHash] at hh
        | cons c3 t =>
          by_cases hw : jsWs c3
          · simp only [headingHash, hw, if_pos rfl, if_true, reduceIte,
              Option.some_inj] at hh
            subst hh
            simp [List.getD]
          · simp [headingHash, hw] at hh
      · by_cases hw : jsWs c2
        · simp only [headingHash, if_pos rfl, if_neg h2, hw, if_true, reduceIte,
            Option.some_inj] at hh
          subst hh
          simp [List.getD]
        · simp [headingHash, h2, hw] at hh
    · simp [headingHash, h1] at hh

theorem headingCore_spec {s : List Char} {n0 : Nat} {d1 rest : List Char}
    (h : headingCore s = some (n0, d1, rest)) :
    rest = s.drop n0 ∧ 0 < n0 ∧ n0 ≤ s.length ∧ s.getD 0 ' ' = '#' ∧ d1 ≠ [] ∧
    (∀ q, 0 < q → q < n0 →
      ¬ (s.getD q ' ' = '#' ∧ jsLineTerm (s.getD (q - 1) ' ') = true)) := by
  cases hh : headingHash s with
  | none => simp [headingCore, hh] at h
  | some h0 =>
    obtain ⟨hor, hhead, hlen⟩ := headingHash_spec hh
    simp only [headingCore, hh] at h
    split_ifs at h with hde
    rw [Option.some_inj] at h
    obtain ⟨hn0, hd1, hrest⟩ : n0 = h0 + ((s.drop h0).takeWhile jsWs).length +
        (((s.drop h0).drop ((s.drop h0).takeWhile jsWs).length).takeWhile jsDigit).length ∧
        d1 = ((s.drop h0).drop ((s.drop h0).takeWhile jsWs).length).takeWhile jsDigit ∧
        rest = ((s.drop h0).drop ((s.drop h0).takeWhile jsWs).length).drop
          (((s.drop h0).drop ((s.drop h0).takeWhile jsWs).length).takeWhile jsDigit).length := by
      have h1 := congrArg Prod.fst h
      have h2 := congrArg (fun p => p.2.1) h
      have h3 := congrArg (fun p => p.2.2) h
      exact ⟨h1.symm, h2.symm, h3.symm⟩
    set w := (s.drop h0).takeWhile jsWs with hwdef
    set afterWs := (s.drop h0).drop w.length with hawdef
    set d := afterWs.takeWhile jsDigit with hddef
    have hwlen : w.length ≤ (s.drop h0).length := (List.takeWhile_prefix _).length_le
    have hdlen : d.length ≤ afterWs.length := (List.takeWhile_prefix _).length_le
    have hslen : (s.drop h0).length = s.length - h0 := List.length_drop h0 s
    have hawlen : afterWs.length = (s.drop h0).length - w.length := by
      rw [hawdef, List.length_drop]
    refine ⟨?_, by omega, by omega, hhead, ?_, ?_⟩
    · rw [hrest, hawdef, List.drop_drop, List.drop_drop, hn0]
      congr 1
      omega
    · rw [hd1]
      intro hnil
      rw [hnil] at hde
      simp at hde
    · intro q hq0 hqn
      rintro ⟨hqc, hql⟩
      rcases Nat.lt_or_ge q h0 with hcase | hcase
      · have hq1 : q = 1 := by
          rcases hor with h1 | h2
          · omega
          · omega
        rw [hq1] at hql
        simp only [Nat.sub_self] at hql
        rw [hhead] at hql
        revert hql
        decide
      · rcases Nat.lt_or_ge q (h0 + w.length) with hcase2 | hcase2
        · have hj : q - h0 < w.length := by omega
          have := takeWhile_pred_at jsWs (s.drop h0) (q - h0) (by rw [← hwdef]; omega)
          rw [getD_drop_add] at this
          rw [show h0 + (q - h0) = q from by omega] at this
          exact absurd hqc (jsWs_ne_hash this)
        · have hj : q - h0 - w.length < d.length := by omega
          have := takeWhile_pred_at jsDigit afterWs (q - h0 - w.length)
            (by rw [← hddef]; omega)
          rw [hawdef, getD_drop_add, getD_drop_add] at this
          rw [show h0 + (w.length + (q - h0 - w.length)) = q from by omega] at this
          exact absurd hqc (jsDigit_ne_hash this)

theorem jsWs_not_digit {c : Char} (h : jsWs c = true) : jsDigit c = false := by
  by_contra hd
  have hd2 : jsDigit c = true := by revert hd; cases jsDigit c <;> simp
  simp only [jsWs, Bool.or_eq_true, Bool.and_eq_true, decide_eq_true_eq] at h
  simp only [jsDigit, Bool.and_eq_true, decide_eq_true_eq] at hd2
  omega

theorem getD_of_drop_cons {s : List Char} {i : Nat} {c : Char} {t : List Char}
    (h : s.drop i = c :: t) : s.getD i ' ' = c := by
  have h2 := getD_drop_add s i 0
  rw [h] at h2
  simpa [List.getD] using h2.symm

theorem drop_succ_of_drop_cons {s : List Char} {i : Nat} {c : Char} {t : List Char}
    (h : s.drop i = c :: t) : s.drop (i + 1) = t := by
  have h2 : (s.drop i).drop 1 = s.drop (i + 1) := List.drop_drop 1 i s
  rw [h] at h2
  simpa using h2.symm

theorem lt_length_of_drop_cons {s : List Char} {i : Nat} {c : Char} {t : List Char}
    (h : s.drop i = c :: t) : i < s.length ∧ t.length = s.length - i - 1 := by
  have h2 := congrArg List.length h
  rw [List.length_drop] at h2
  simp only [List.length_cons] at h2
  omega

theorem region_not_hash {p : Char → Bool} (hp : ∀ c, p c = true → c ≠ '#')
    (s : List Char) (i q : Nat) (hq : i ≤ q)
    (hqlt : q - i < ((s.drop i).takeWhile p).length) :
    s.getD q ' ' ≠ '#' := by
  have h2 := takeWhile_pred_at p (s.drop i) (q - i) hqlt
  rw [getD_drop_add, show i + (q - i) = q from by omega] at h2
  exact hp _ h2

theorem crossrefHeadingMatch_spec {s : List Char} {a : String} {len : Nat}
    (h : crossrefHeadingMatch s = some (a, len)) :
    0 < len ∧ len ≤ s.length ∧ s.getD 0 ' ' = '#' ∧
    (∀ q, 0 < q → q < len →
      ¬ (s.getD q ' ' = '#' ∧ jsLineTerm (s.getD (q - 1) ' ') = true)) := by
  cases hc : headingCore s with
  | none => simp [crossrefHeadingMatch, hc] at h
  | some trip =>
    obtain ⟨n0, d1, rest⟩ := trip
    obtain ⟨hrest, hn0pos, hn0le, hhead, hd1ne, hint⟩ := headingCore_spec hc
    simp only [crossrefHeadingMatch, hc] at h
    cases hr : rest with
    | nil => rw [hr] at h; simp at h
    | cons c rest2 =>
      rw [hr] at h
      rw [hr] at hrest
      have hdot0 : s.drop n0 = c :: rest2 := hrest.symm
      obtain ⟨hn0lt, hrest2len⟩ := lt_length_of_drop_cons hdot0
      have hcharn0 := getD_of_drop_cons hdot0
      have hrest2 : s.drop (n0 + 1) = rest2 := drop_succ_of_drop_cons hdot0
      by_cases hcdot : c = '.'
      · subst hcdot
        simp only [reduceIte] at h
        cases hr2 : rest2 with
        | nil => rw [hr2] at h; simp at h
        | cons c2 rest3 =>
          rw [hr2] at h
          rw [hr2] at hrest2
          cases hdig : jsDigit c2 with
          | false =>
            simp only [hdig, Bool.false_eq_true, if_false, reduceIte] at h
            split_ifs at h with hw2e
            simp only [Option.some_inj, Prod.mk.injEq] at h
            obtain ⟨ha, hlen⟩ := h
            have hw2len : ((c2 :: rest3).takeWhile jsWs).length ≤ (c2 :: rest3).length :=
              (List.takeWhile_prefix _).length_le
            have hr2len : (c2 :: rest3).length = s.length - (n0 + 1) := by
              have h3 := congrArg List.length hrest2
              rw [List.length_drop] at h3
              omega
            refine ⟨by omega, by omega, hhead, ?_⟩
            intro q hq0 hqlen
            rintro ⟨hqc, hql⟩
            rcases Nat.lt_or_ge q n0 with hcase | hcase
            · exact hint q hq0 hcase ⟨hqc, hql⟩
            rcases Nat.eq_or_lt_of_le hcase with hcase2 | hcase2
            · rw [hcase2] at hcharn0
              rw [hcharn0] at hqc
              cases hqc
            · refine absurd hqc
                (region_not_hash (fun _ hx => jsWs_ne_hash hx) s (n0 + 1) q (by omega) ?_)
              rw [hrest2]
              omega
          | true =>
            simp only [hdig, if_true, reduceIte] at h
            set d2 := (c2 :: rest3).takeWhile jsDigit with hd2def
            cases hr4 : (c2 :: rest3).drop d2.length with
            | nil => rw [hr4] at h; simp at h
            | cons c3 rest4 =>
              rw [hr4] at h
              by_cases hc3 : c3 = '.'
              · subst hc3
                simp only [reduceIte] at h
                split_ifs at h with hw2e
                simp only [Option.some_inj, Prod.mk.injEq] at h
                obtain ⟨ha, hlen⟩ := h
                have hd2len : d2.length ≤ rest2.length := by
                  rw [hr2, hd2def]
                  exact (List.takeWhile_prefix _).length_le
                have hdropd2 : s.drop (n0 + 1 + d2.length) = '.' :: rest4 := by
                  have h3 := List.drop_drop d2.length (n0 + 1) s
                  rw [hrest2] at h3
                  rw [show n0 + 1 + d2.length = n0 + 1 + d2.length from rfl]
                  rw [← h3, hr4]
                obtain ⟨hlt2, hrest4len⟩ := lt_length_of_drop_cons hdropd2
                have hrest4 : s.drop (n0 + 1 + d2.length + 1) = rest4 :=
                  drop_succ_of_drop_cons hdropd2
                have hw2len : (rest4.takeWhile jsWs).length ≤ rest4.length :=
                  (List.takeWhile_prefix _).length_le
                refine ⟨by omega, by omega, hhead, ?_⟩
                intro q hq0 hqlen
                rintro ⟨hqc, hql⟩
                rcases Nat.lt_or_ge q n0 with hcase | hcase
                · exact hint q hq0 hcase ⟨hqc, hql⟩
                rcases Nat.eq_or_lt_of_le hcase with hcase2 | hcase2
                · rw [hcase2] at hcharn0
                  rw [hcharn0] at hqc
                  cases hqc
                rcases Nat.lt_or_ge q (n0 + 1 + d2.length) with hcase3 | hcase3
                · refine absurd hqc
                    (region_not_hash (fun _ hx => jsDigit_ne_hash hx) s (n0 + 1) q (by omega) ?_)
                  rw [hrest2, ← hd2def]
                  omega
                rcases Nat.eq_or_lt_of_le hcase3 with hcase4 | hcase4
                · rw [hcase4] at hdropd2
                  rw [getD_of_drop_cons hdropd2] at hqc
                  cases hqc
                · refine absurd hqc
                    (region_not_hash (fun _ hx => jsWs_ne_hash hx) s (n0 + 1 + d2.length + 1) q
                      (by omega) ?_)
                  rw [hrest4]
                  omega
              · simp [hc3] at h
      · simp [hcdot] at h

theorem templateTail_spec {r : List Char} {title : List Char} {tlen : Nat}
    (h : templateTail r = some (title, tlen)) :
    0 < tlen ∧ tlen ≤ r.length ∧ ¬ (r.takeWhile jsWs).isEmpty := by
  simp only [templateTail] at h
  split_ifs at h with hW hlt
  · -- W.length < r.length
    simp only [Option.some_inj, Prod.mk.injEq] at h
    obtain ⟨ht, hl⟩ := h
    have hR : ((r.drop (r.takeWhile jsWs).length).takeWhile
        (fun c => !jsLineTerm c)).length ≤ (r.drop (r.takeWhile jsWs).length).length :=
      (List.takeWhile_prefix _).length_le
    rw [List.length_drop] at hR
    have hWne : 0 < (r.takeWhile jsWs).length := by
      cases hWc : r.takeWhile jsWs with
      | nil => rw [hWc] at hW; simp at hW
      | cons x xs => simp [hWc]
    refine ⟨by omega, by omega, hW⟩
  · -- r is all whitespace
    cases hh : (((List.range r.length).filter
        (fun i => decide (1 ≤ i) && !jsLineTerm (r.getD i ' '))).reverse).head? with
    | none => rw [hh] at h; cases h
    | some i =>
      rw [hh] at h
      simp only [Option.some_inj, Prod.mk.injEq] at h
      obtain ⟨ht, hl⟩ := h
      have hmem : i ∈ (List.range r.length).filter
          (fun i => decide (1 ≤ i) && !jsLineTerm (r.getD i ' ')) := by
        have hmem2 : i ∈ ((List.range r.length).filter
            (fun i => decide (1 ≤ i) && !jsLineTerm (r.getD i ' '))).reverse :=
          List.mem_of_mem_head? hh
        simpa using hmem2
      rw [List.mem_filter] at hmem
      obtain ⟨hrange, hpred⟩ := hmem
      rw [List.mem_range] at hrange
      simp only [Bool.and_eq_true, decide_eq_true_eq] at hpred
      have hR : ((r.drop i).takeWhile (fun c => !jsLineTerm c)).length ≤
          (r.drop i).length := (List.takeWhile_prefix _).length_le
      rw [List.length_drop] at hR
      refine ⟨by omega, by omega, hW⟩

theorem templateHeadingMatch_spec {s : List Char} {num title : String} {len : Nat}
    (h : templateHeadingMatch s = some ((num, title), len)) :
    0 < len ∧ len ≤ s.length := by
  cases hc : headingCore s with
  | none => simp [templateHeadingMatch, hc] at h
  | some trip =>
    obtain ⟨n0, d1, rest⟩ := trip
    obtain ⟨hrest, hn0pos, hn0le, hhead, hd1ne, hint⟩ := headingCore_spec hc
    simp only [templateHeadingMatch, hc] at h
    cases hr : rest with
    | nil => rw [hr] at h; simp at h
    | cons c r =>
      rw [hr] at h
      rw [hr] at hrest
      have hdot0 : s.drop n0 = c :: r := hrest.symm
      obtain ⟨hn0lt, hrlen⟩ := lt_length_of_drop_cons hdot0
      by_cases hcdot : c = '.'
      · subst hcdot
        simp only [reduceIte] at h
        cases ht : templateTail r with
        | none => rw [ht] at h; cases h
        | some pair =>
          obtain ⟨title2, tlen⟩ := pair
          rw [ht] at h
          simp only [Option.some_inj, Prod.mk.injEq] at h
          obtain ⟨⟨hnum, htitle⟩, hlen⟩ := h
          obtain ⟨htl1, htl2, _⟩ := templateTail_spec ht
          omega
      · simp [hcdot] at h

theorem templateHeadingMatch_to_crossref {s : List Char} {num title : String} {len : Nat}
    (h : templateHeadingMatch s = some ((num, title), len)) :
    ∃ len2, crossrefHeadingMatch s = some (num, len2) := by
  cases hc : headingCore s with
  | none => simp [templateHeadingMatch, hc] at h
  | some trip =>
    obtain ⟨n0, d1, rest⟩ := trip
    simp only [templateHeadingMatch, hc] at h
    cases hr : rest with
    | nil => rw [hr] at h; simp at h
    | cons c r =>
      rw [hr] at h
      by_cases hcdot : c = '.'
      · subst hcdot
        simp only [reduceIte] at h
        cases ht : templateTail r with
        | none => rw [ht] at h; cases h
        | some pair =>
          obtain ⟨title2, tlen⟩ := pair
          rw [ht] at h
          simp only [Option.some_inj, Prod.mk.injEq] at h
          obtain ⟨⟨hnum, htitle⟩, hlen⟩ := h
          obtain ⟨htl1, htl2, hWne⟩ := templateTail_spec ht
          cases hrc : r with
          | nil =>
            rw [hrc] at hWne
            simp [List.takeWhile] at hWne
          | cons c2 r2 =>
            have hc2ws : jsWs c2 = true := by
              rw [hrc] at hWne
              by_cases hw : jsWs c2
              · exact hw
              · rw [List.takeWhile_cons_of_neg hw] at hWne
                simp at hWne
            have hc2dig : jsDigit c2 = false := jsWs_not_digit hc2ws
            refine ⟨n0 + 1 + ((c2 :: r2).takeWhile jsWs).length, ?_⟩
            simp only [crossrefHeadingMatch, hc, hr, hrc, reduceIte, hc2dig,
              Bool.false_eq_true, if_false]
            have hw2ne : ¬ ((c2 :: r2).takeWhile jsWs).isEmpty = true := by
              rw [List.takeWhile_cons_of_pos hc2ws]
              simp
            rw [if_neg hw2ne]
            rw [← hnum]
      · simp [hcdot] at h

theorem scanAnchored_sound {α : Type} (m : List Char → Option (α × Nat))
    (hm : ∀ (t : List Char) (a : α) (len : Nat), m t = some (a, len) →
      0 < len ∧ len ≤ t.length) :
    ∀ (fuel : Nat) (s : List Char) (ls : Bool) (pos : Nat) (a : α),
      a ∈ (scanAnchored m fuel s ls pos).map Prod.fst →
      ∃ q len, ((q = 0 ∧ ls = true) ∨
        (0 < q ∧ jsLineTerm (s.getD (q - 1) ' ') = true)) ∧
        m (s.drop q) = some (a, len) := by
  intro fuel
  induction fuel with
  | zero => intro s ls pos a ha; simp [scanAnchored] at ha
  | succ n ih =>
    intro s ls pos a ha
    cases s with
    | nil => simp [scanAnchored] at ha
    | cons c rest =>
      cases hls : ls with
      | false =>
        rw [hls] at ha
        have hstep : scanAnchored m (n + 1) (c :: rest) false pos =
            scanAnchored m n rest (jsLineTerm c) (pos + 1) := by
          simp [scanAnchored]
        rw [hstep] at ha
        obtain ⟨q2, len2, hcond, hmq⟩ := ih rest (jsLineTerm c) (pos + 1) a ha
        refine ⟨q2 + 1, len2, ?_, ?_⟩
        · rcases hcond with ⟨hq0, hlt⟩ | ⟨hq0, hlt⟩
          · subst hq0
            exact Or.inr ⟨by omega, by simpa [List.getD] using hlt⟩
          · refine Or.inr ⟨by omega, ?_⟩
            rw [show q2 + 1 - 1 = (q2 - 1) + 1 from by omega, List.getD_cons_succ]
            exact hlt
        · have : (c :: rest).drop (q2 + 1) = rest.drop q2 := List.drop_succ_cons
          rw [this]
          exact hmq
      | true =>
        rw [hls] at ha
        cases hmt : m (c :: rest) with
        | none =>
          have hstep : scanAnchored m (n + 1) (c :: rest) true pos =
              scanAnchored m n rest (jsLineTerm c) (pos + 1) := by
            simp [scanAnchored, hmt]
          rw [hstep] at ha
          obtain ⟨q2, len2, hcond, hmq⟩ := ih rest (jsLineTerm c) (pos + 1) a ha
          refine ⟨q2 + 1, len2, ?_, ?_⟩
          · rcases hcond with ⟨hq0, hlt⟩ | ⟨hq0, hlt⟩
            · subst hq0
              exact Or.inr ⟨by omega, by simpa [List.getD] using hlt⟩
            · refine Or.inr ⟨by omega, ?_⟩
              rw [show q2 + 1 - 1 = (q2 - 1) + 1 from by omega, List.getD_cons_succ]
              exact hlt
          · have : (c :: rest).drop (q2 + 1) = rest.drop q2 := List.drop_succ_cons
            rw [this]
            exact hmq
        | some pair =>
          obtain ⟨a0, len0⟩ := pair
          obtain ⟨hl0, hl0le⟩ := hm _ _ _ hmt
          have hne0 : ¬ len0 = 0 := by omega
          have hlast : ((c :: rest).take len0).getLast? =
              some ((c :: rest).getD (len0 - 1) ' ') :=
            getLast?_take_of_le (c :: rest) len0 hl0 hl0le
          simp only [scanAnchored, hmt, hne0, if_false, reduceIte, hlast,
            List.map_cons, List.mem_cons] at ha
          rcases ha with ha | ha
          · exact ⟨0, len0, Or.inl ⟨rfl, rfl⟩, by rw [List.drop_zero, hmt, ha]⟩
          · obtain ⟨q2, len2, hcond, hmq⟩ := ih _ _ _ a ha
            refine ⟨q2 + len0, len2, ?_, ?_⟩
            · rcases hcond with ⟨hq0, hlt⟩ | ⟨hq0, hlt⟩
              · subst hq0
                refine Or.inr ⟨by omega, ?_⟩
                simpa [show 0 + len0 - 1 = len0 - 1 from by omega] using hlt
              · refine Or.inr ⟨by omega, ?_⟩
                rw [getD_drop_add] at hlt
                rw [show q2 + len0 - 1 = len0 + (q2 - 1) from by omega]
                exact hlt
            · rw [Nat.add_comm q2 len0]
              rw [show (c :: rest).drop (len0 + q2) =
                  ((c :: rest).drop len0).drop q2 from
                  (List.drop_drop q2 len0 (c :: rest)).symm]
              exact hmq

theorem scanAnchored_complete {α : Type} (m : List Char → Option (α × Nat))
    (hm : ∀ (t : List Char) (a : α) (len : Nat), m t = some (a, len) →
      0 < len ∧ len ≤ t.length)
    (hhash : ∀ (t : List Char) (a : α) (len : Nat), m t = some (a, len) →
      t.getD 0 ' ' = '#')
    (hintr : ∀ (t : List Char) (a : α) (len : Nat), m t = some (a, len) →
      ∀ q, 0 < q → q < len →
        ¬ (t.getD q ' ' = '#' ∧ jsLineTerm (t.getD (q - 1) ' ') = true)) :
    ∀ (fuel : Nat) (s : List Char) (ls : Bool) (pos : Nat) (q : Nat) (a : α) (len : Nat),
      s.length ≤ fuel →
      ((q = 0 ∧ ls = true) ∨ (0 < q ∧ jsLineTerm (s.getD (q - 1) ' ') = true)) →
      m (s.drop q) = some (a, len) →
      a ∈ (scanAnchored m fuel s ls pos).map Prod.fst := by
  intro fuel
  induction fuel with
  | zero =>
    intro s ls pos q a len hfuel hcond hmq
    have hs : s = [] := List.eq_nil_of_length_eq_zero (by omega)
    subst hs
    rw [List.drop_nil] at hmq
    obtain ⟨h1, h2⟩ := hm _ _ _ hmq
    simp at h2
    omega
  | succ n ih =>
    intro s ls pos q a len hfuel hcond hmq
    obtain ⟨hlpos, hlle⟩ := hm _ _ _ hmq
    have hqlt : q < s.length := by
      have := List.length_drop q s
      omega
    cases s with
    | nil => simp at hqlt
    | cons c rest =>
      by_cases hq0 : q = 0
      · subst hq0
        rw [List.drop_zero] at hmq
        have hls : ls = true := by
          rcases hcond with ⟨_, h⟩ | ⟨h, _⟩
          · exact h
          · omega
        subst hls
        have hne0 : ¬ len = 0 := by omega
        simp only [scanAnchored, hmq, hne0, if_false, reduceIte, List.map_cons,
          List.mem_cons]
        exact Or.inl trivial
      · have hqpos : 0 < q := by omega
        have hprev : jsLineTerm ((c :: rest).getD (q - 1) ' ') = true := by
          rcases hcond with ⟨h, _⟩ | ⟨_, h⟩
          · omega
          · exact h
        have hhq : (c :: rest).getD q ' ' = '#' := by
          have := hhash _ _ _ hmq
          rw [getD_drop_add] at this
          simpa using this
        cases hls : ls with
        | false =>
          have hstep : scanAnchored m (n + 1) (c :: rest) false pos =
              scanAnchored m n rest (jsLineTerm c) (pos + 1) := by
            simp [scanAnchored]
          rw [hstep]
          refine ih rest (jsLineTerm c) (pos + 1) (q - 1) a len (by
            simp only [List.length_cons] at hfuel
            omega) ?_ ?_
          · by_cases hq1 : q = 1
            · subst hq1
              refine Or.inl ⟨rfl, ?_⟩
              simpa [List.getD] using hprev
            · refine Or.inr ⟨by omega, ?_⟩
              rw [show q - 1 - 1 = (q - 1) - 1 from rfl] at *
              rw [show q - 1 = (q - 2) + 1 from by omega] at hprev
              rw [List.getD_cons_succ] at hprev
              rw [show q - 1 - 1 = q - 2 from by omega]
              exact hprev
          · have hdq : (c :: rest).drop q = rest.drop (q - 1) := by
              conv_lhs => rw [show q = (q - 1) + 1 from by omega, List.drop_succ_cons]
            rw [← hdq]
            exact hmq
        | true =>
          cases hmt : m (c :: rest) with
          | none =>
            have hstep : scanAnchored m (n + 1) (c :: rest) true pos =
                scanAnchored m n rest (jsLineTerm c) (pos + 1) := by
              simp [scanAnchored, hmt]
            rw [hstep]
            refine ih rest (jsLineTerm c) (pos + 1) (q - 1) a len (by
              simp only [List.length_cons] at hfuel
              omega) ?_ ?_
            · by_cases hq1 : q = 1
              · subst hq1
                refine Or.inl ⟨rfl, ?_⟩
                simpa [List.getD] using hprev
              · refine Or.inr ⟨by omega, ?_⟩
                rw [show q - 1 = (q - 2) + 1 from by omega] at hprev
                rw [List.getD_cons_succ] at hprev
                rw [show q - 1 - 1 = q - 2 from by omega]
                exact hprev
            · have hdq : (c :: rest).drop q = rest.drop (q - 1) := by
                conv_lhs => rw [show q = (q - 1) + 1 from by omega, List.drop_succ_cons]
              rw [← hdq]
              exact hmq
          | some pair =>
            obtain ⟨a0, len0⟩ := pair
            obtain ⟨hl0, hl0le⟩ := hm _ _ _ hmt
            have hqge : len0 ≤ q := by
              by_contra hqlt0
              exact hintr _ _ _ hmt q hqpos (by omega) ⟨hhq, hprev⟩
            have hne0 : ¬ len0 = 0 := by omega
            have hlast : ((c :: rest).take len0).getLast? =
                some ((c :: rest).getD (len0 - 1) ' ') :=
              getLast?_take_of_le (c :: rest) len0 hl0 hl0le
            simp only [scanAnchored, hmt, hne0, if_false, reduceIte, hlast,
              List.map_cons, List.mem_cons]
            refine Or.inr (ih ((c :: rest).drop len0)
              (jsLineTerm ((c :: rest).getD (len0 - 1) ' ')) (pos + len0)
              (q - len0) a len ?_ ?_ ?_)
            · rw [List.length_drop]
              simp only [List.length_cons] at hfuel ⊢
              omega
            · by_cases hqe : q = len0
              · refine Or.inl ⟨by omega, ?_⟩
                rw [show len0 - 1 = q - 1 from by omega]
                exact hprev
              · refine Or.inr ⟨by omega, ?_⟩
                rw [getD_drop_add]
                rw [show len0 + (q - len0 - 1) = q - 1 from by omega]
                exact hprev
            · rw [show ((c :: rest).drop len0).drop (q - len0) = (c :: rest).drop q from by
                rw [List.drop_drop, show len0 + (q - len0) = q from by omega]]
              exact hmq

/-- **C4 counterexample**: the two heading patterns are not the same — a
dotted-number heading is an existing cross-reference target but is not
recognised by the template validator's section parse. -/
theorem heading_pattern_counterexample :
    "1.2" ∈ crossrefSectionNumbers "## 1.2. Overview" ∧
    "1.2" ∉ templateSectionNumbers "## 1.2. Overview" ∧
    ¬ (∀ n : String, n ∈ templateSectionNumbers "## 1.2. Overview" ↔
        n ∈ crossrefSectionNumbers "## 1.2. Overview") := by
  refine ⟨by decide, by decide, ?_⟩
  intro h
  have h1 : "1.2" ∈ crossrefSectionNumbers "## 1.2. Overview" := by decide
  have h2 : "1.2" ∉ templateSectionNumbers "## 1.2. Overview" := by decide
  exact h2 ((h "1.2").mpr h1)

/-- **C4 amended**: every section number the template validator's parse
recognises is collected by the cross-reference validator as an existing
target (the template pattern accepts only plain-integer numbers followed
by a title, the crossref pattern also dotted numbers, so the inclusion is
strict in general). -/
theorem template_section_numbers_subset_crossref :
    ∀ (text : String) (n : String),
      n ∈ templateSectionNumbers text → n ∈ crossrefSectionNumbers text := by
  intro text n hn
  simp only [templateSectionNumbers, templateSections] at hn
  rw [List.mem_map] at hn
  obtain ⟨x, hx, hxn⟩ := hn
  have hx1 : x.1 ∈ (scanAnchored templateHeadingMatch text.data.length
      text.data true 0).map Prod.fst := List.mem_map_of_mem _ hx
  have hmt : ∀ (t : List Char) (a : String × String) (len : Nat),
      templateHeadingMatch t = some (a, len) → 0 < len ∧ len ≤ t.length := by
    intro t a len h
    obtain ⟨num, title⟩ := a
    exact templateHeadingMatch_spec h
  obtain ⟨q, len, hcond, hmq⟩ := scanAnchored_sound _ hmt _ _ _ _ _ hx1
  have hmq2 : templateHeadingMatch (text.data.drop q) = some ((n, x.1.2), len) := by
    have hxeq : ((n : String), x.1.2) = x.1 := by rw [← hxn]
    rw [hxeq]
    exact hmq
  obtain ⟨len2, hcm⟩ := templateHeadingMatch_to_crossref hmq2
  have hmem := scanAnchored_complete crossrefHeadingMatch
    (fun t a len h => ⟨(crossrefHeadingMatch_spec h).1, (crossrefHeadingMatch_spec h).2.1⟩)
    (fun t a len h => (crossrefHeadingMatch_spec h).2.2.1)
    (fun t a len h => (crossrefHeadingMatch_spec h).2.2.2)
    text.data.length text.data true 0 q n len2 le_rfl hcond hcm
  simpa [crossrefSectionNumbers] using hmem

/-- Witness for `template_section_numbers_subset_crossref` at a concrete
heading. -/
theorem template_section_numbers_subset_crossref_witness :
    "1" ∈ templateSectionNumbers "## 1. Title" ∧
    "1" ∈ crossrefSectionNumbers "## 1. Title" :=
  ⟨by decide, template_section_numbers_subset_crossref "## 1. Title" "1" (by decide)⟩

end Drift
